import Mathlib

set_option maxHeartbeats 1600000
set_option maxRecDepth 4000

/-!  Verification development for the `ft60x-rs` repository.

Shallow embedding of the code under `src/`:

* `src/ft60x_config.rs` — the 152-byte configuration record codec
  (`FT60xConfig::parse` / `FT60xConfig::encode` and the enum/bitflag types);
* `src/ringbuf.rs` — the bounded single-producer/single-consumer ring
  channel (`RingBuf`, `RingBufProducer`, `RingBufConsumer`), modelled as a
  small-step transition system over the two endpoint threads;
* `src/ft60x.rs` — the windowed asynchronous bulk read `FT60x::read_exact`,
  modelled against a synthetic completion backend.

Rust `usize`/`u64` counters are modelled as `Nat`; the two subtractions that
can actually underflow (`next_read_pos - 1` in `RingBufConsumer::cancel`,
and saturation-guarded ones) are modelled explicitly.  A Rust panic
(index out of bounds, overflow-checked arithmetic, failed `unwrap`) is a
distinguished outcome, not an `Err` return.  -/

/-- Outcome of running a piece of Rust code: a normal value, a clean `Err`
return, or a Rust panic (index out of bounds, overflow-checked subtraction,
failed `unwrap`). -/
inductive POut (α : Type) where
  | ok (a : α)
  | err
  | panicked
  deriving DecidableEq

def POut.bind {α β : Type} : POut α → (α → POut β) → POut β
  | .ok a, f => f a
  | .err, _ => .err
  | .panicked, _ => .panicked

instance : Monad POut where
  pure := POut.ok
  bind := POut.bind

@[simp] theorem POut.bind_ok {α β : Type} (a : α) (f : α → POut β) :
    POut.bind (.ok a) f = f a := rfl

@[simp] theorem POut.bind_err {α β : Type} (f : α → POut β) :
    POut.bind (.err : POut α) f = .err := rfl

@[simp] theorem POut.bind_panicked {α β : Type} (f : α → POut β) :
    POut.bind (.panicked : POut α) f = .panicked := rfl

/-- `src/ft60x_config.rs`: `enum FT60xFifoMode`. -/
inductive FT60xFifoMode where
  | Mode245
  | Mode600
  deriving DecidableEq

def FT60xFifoMode.parse (num : Nat) : POut FT60xFifoMode :=
  match num with
  | 0 => .ok .Mode245
  | 1 => .ok .Mode600
  | _ => .err

def FT60xFifoMode.encode : FT60xFifoMode → Nat
  | .Mode245 => 0
  | .Mode600 => 1

/-- `src/ft60x_config.rs`: `enum FT60xFifoClock`. -/
inductive FT60xFifoClock where
  | Clock100MHz
  | Clock66MHz
  | Clock50MHz
  | Clock40MHz
  deriving DecidableEq

def FT60xFifoClock.parse (num : Nat) : POut FT60xFifoClock :=
  match num with
  | 0 => .ok .Clock100MHz
  | 1 => .ok .Clock66MHz
  | 2 => .ok .Clock50MHz
  | 3 => .ok .Clock40MHz
  | _ => .err

def FT60xFifoClock.encode : FT60xFifoClock → Nat
  | .Clock100MHz => 0
  | .Clock66MHz => 1
  | .Clock50MHz => 2
  | .Clock40MHz => 3

/-- `src/ft60x_config.rs`: `enum FT60xChannelConfig`. -/
inductive FT60xChannelConfig where
  | FourChannels
  | TwoChannels
  | OneChannel
  | OneChannelOutPipe
  | OneChannelInPipe
  deriving DecidableEq

def FT60xChannelConfig.parse (num : Nat) : POut FT60xChannelConfig :=
  match num with
  | 0 => .ok .FourChannels
  | 1 => .ok .TwoChannels
  | 2 => .ok .OneChannel
  | 3 => .ok .OneChannelOutPipe
  | 4 => .ok .OneChannelInPipe
  | _ => .err

def FT60xChannelConfig.encode : FT60xChannelConfig → Nat
  | .FourChannels => 0
  | .TwoChannels => 1
  | .OneChannel => 2
  | .OneChannelOutPipe => 3
  | .OneChannelInPipe => 4

/-- `ft60x_flash_rom_detection::MemoryType`. -/
inductive MemoryType where
  | Flash
  | ROM
  deriving DecidableEq

/-- `ft60x_flash_rom_detection::MemoryStatus`. -/
inductive MemoryStatus where
  | Exists
  | ExistsNot
  deriving DecidableEq

/-- `ft60x_flash_rom_detection::CustomConfigValidity`. -/
inductive CustomConfigValidity where
  | Valid
  | Invalid
  deriving DecidableEq

/-- `ft60x_flash_rom_detection::CustomConfigChecksum`. -/
inductive CustomConfigChecksum where
  | Valid
  | Invalid
  deriving DecidableEq

/-- `ft60x_flash_rom_detection::GPIOInput`. -/
inductive GPIOInput where
  | Ignore
  | Used
  deriving DecidableEq

/-- `ft60x_flash_rom_detection::ConfigUsed`. -/
inductive ConfigUsed where
  | Default
  | Custom
  deriving DecidableEq

/-- `ft60x_flash_rom_detection::GPIO0`. -/
inductive GPIO0 where
  | Low
  | High
  deriving DecidableEq

/-- `ft60x_flash_rom_detection::GPIO1`. -/
inductive GPIO1 where
  | Low
  | High
  deriving DecidableEq

/-- `ft60x_flash_rom_detection::FT60xFlashRomDetection`. -/
structure FT60xFlashRomDetection where
  memory_type : MemoryType
  memory_status : MemoryStatus
  custom_config_validity : CustomConfigValidity
  custom_config_checksum : CustomConfigChecksum
  gpio_input : GPIOInput
  config_used : ConfigUsed
  gpio0 : GPIO0
  gpio1 : GPIO1
  deriving DecidableEq

/-- `FT60xFlashRomDetection::parse`: decompose one flag byte; never fails. -/
def FT60xFlashRomDetection.parse (flags : Nat) : POut FT60xFlashRomDetection :=
  .ok
    { memory_type := if flags &&& (1 <<< 0) = 0 then .Flash else .ROM
      memory_status := if flags &&& (1 <<< 1) = 0 then .Exists else .ExistsNot
      custom_config_validity := if flags &&& (1 <<< 2) = 0 then .Valid else .Invalid
      custom_config_checksum := if flags &&& (1 <<< 3) = 0 then .Valid else .Invalid
      config_used := if flags &&& (1 <<< 4) = 0 then .Default else .Custom
      gpio_input := if flags &&& (1 <<< 5) = 0 then .Ignore else .Used
      gpio0 := if flags &&& (1 <<< 6) = 0 then .Low else .High
      gpio1 := if flags &&& (1 <<< 7) = 0 then .Low else .High }

/-- `FT60xFlashRomDetection::encode`: rebuild the flag byte. -/
def FT60xFlashRomDetection.encode (f : FT60xFlashRomDetection) : Nat :=
  (if f.memory_type = .ROM then 1 <<< 0 else 0) |||
  (if f.memory_status = .ExistsNot then 1 <<< 1 else 0) |||
  (if f.custom_config_validity = .Invalid then 1 <<< 2 else 0) |||
  (if f.custom_config_checksum = .Invalid then 1 <<< 3 else 0) |||
  (if f.config_used = .Custom then 1 <<< 4 else 0) |||
  (if f.gpio_input = .Used then 1 <<< 5 else 0) |||
  (if f.gpio0 = .High then 1 <<< 6 else 0) |||
  (if f.gpio1 = .High then 1 <<< 7 else 0)

theorem fifoMode_parse_encode (m : FT60xFifoMode) : FT60xFifoMode.parse m.encode = .ok m := by
  cases m <;> rfl

theorem fifoClock_parse_encode (c : FT60xFifoClock) :
    FT60xFifoClock.parse c.encode = .ok c := by
  cases c <;> rfl

theorem channelConfig_parse_encode (c : FT60xChannelConfig) :
    FT60xChannelConfig.parse c.encode = .ok c := by
  cases c <;> rfl

theorem flashRomDetection_parse_encode (f : FT60xFlashRomDetection) :
    FT60xFlashRomDetection.parse f.encode = .ok f := by
  obtain ⟨a, b, c, d, e, g, h, i⟩ := f
  cases a <;> cases b <;> cases c <;> cases d <;> cases e <;> cases g <;> cases h <;> cases i <;>
    rfl

/-- Little-endian bytes of a `u16` as written by `write_u16::<LittleEndian>`. -/
def u16le (n : Nat) : List Nat := [n % 256, n / 256 % 256]

/-- Little-endian bytes of a `u32` as written by `write_u32::<LittleEndian>`. -/
def u32le (n : Nat) : List Nat :=
  [n % 256, n / 256 % 256, n / 65536 % 256, n / 16777216 % 256]

/-- `Cursor::read_u8`: consume one byte; `Err` (UnexpectedEof) past the end. -/
def readU8 : List Nat → POut (Nat × List Nat)
  | [] => .err
  | b :: t => .ok (b, t)

/-- `Cursor::read_u16::<LittleEndian>`. -/
def readU16le (l : List Nat) : POut (Nat × List Nat) :=
  POut.bind (readU8 l) fun p0 =>
  POut.bind (readU8 p0.2) fun p1 =>
  .ok (p0.1 + 256 * p1.1, p1.2)

/-- `Cursor::read_u32::<LittleEndian>`. -/
def readU32le (l : List Nat) : POut (Nat × List Nat) :=
  POut.bind (readU8 l) fun p0 =>
  POut.bind (readU8 p0.2) fun p1 =>
  POut.bind (readU8 p1.2) fun p2 =>
  POut.bind (readU8 p2.2) fun p3 =>
  .ok (p0.1 + 256 * p1.1 + 65536 * p2.1 + 16777216 * p3.1, p3.2)

/-- `data.read(&mut strings_buf)` followed by `ensure!(.. == 128)`, for a
general count: take `n` bytes, `Err` if fewer are available. -/
def readBytes (n : Nat) (l : List Nat) : POut (List Nat × List Nat) :=
  if n ≤ l.length then .ok (l.take n, l.drop n) else .err

/-- The character loop of `parse_string` in `FT60xConfig::parse`:
`for i in 0..length { res += from_utf8(&[bytes[2*i+2]])?; ensure!(bytes[2*i+2+1] == 0); }`.
`i` is the current loop index, the second argument the remaining iteration
count.  An index beyond the slice is a Rust panic; a byte ≥ 0x80 makes the
one-byte `from_utf8` fail, which is a clean `Err`. -/
def parseChars (l : List Nat) : Nat → Nat → POut (List Nat)
  | _, 0 => .ok []
  | i, n + 1 =>
    if l.length ≤ 2 * i + 2 then .panicked
    else
      let c := l.getD (2 * i + 2) 0
      if 128 ≤ c then .err
      else if l.length ≤ 2 * i + 3 then .panicked
      else if l.getD (2 * i + 3) 0 ≠ 0 then .err
      else
        POut.bind (parseChars l (i + 1) n) fun cs => .ok (c :: cs)

/-- `fn parse_string(bytes: &[u8]) -> Result<(String, u8)>` from
`FT60xConfig::parse`, acting on the slice `bytes`.  `bytes[0]` on an empty
slice panics; `offset - 2` is a `u8` subtraction that underflows (a panic
under overflow checking) when the length-prefix byte is 0 or 1;
`bytes[1]` panics when the slice has fewer than 2 bytes;
`ensure!(bytes[1] == 0x3)` is a clean `Err`.  The string is returned as its
list of character bytes. -/
def parse_string (l : List Nat) : POut (List Nat × Nat) :=
  if l.length = 0 then .panicked
  else
    let offset := l.getD 0 0
    if offset < 2 then .panicked
    else
      let length := (offset - 2) / 2
      if l.length ≤ 1 then .panicked
      else if l.getD 1 0 ≠ 3 then .err
      else
        POut.bind (parseChars l 0 length) fun cs => .ok (cs, offset)

/-- `&strings_buf[offset..]`: slicing panics when `offset` exceeds the
length. -/
def sliceFrom (l : List Nat) (i : Nat) : POut (List Nat) :=
  if l.length < i then .panicked else .ok (l.drop i)

/-- `src/ft60x_config.rs`: `struct FT60xConfig`.  Strings are carried as
their byte lists (Rust `String`s restricted to the claims' ASCII case). -/
structure FT60xConfig where
  vid : Nat
  pid : Nat
  manufacturer : List Nat
  product_description : List Nat
  serial_number : List Nat
  power_attributes : Nat
  power_consumption : Nat
  fifo_clock : FT60xFifoClock
  fifo_mode : FT60xFifoMode
  channel_config : FT60xChannelConfig
  optional_features_support : Nat
  battery_charging_gpio_config : Nat
  flash_eeprom_detection : FT60xFlashRomDetection
  msio_config : Nat
  gpio_config : Nat
  reserved1 : Nat
  reserved2 : Nat
  deriving DecidableEq

/-- `FT60xConfig::parse(bytes: [u8; 152])`, on the byte list of the input
array.  Field order and the interleaving of cursor reads, string parsing
and slicing follow the source. -/
def FT60xConfig.parse (bytes : List Nat) : POut FT60xConfig :=
  POut.bind (readU16le bytes) fun pvid =>
  POut.bind (readU16le pvid.2) fun ppid =>
  POut.bind (readBytes 128 ppid.2) fun pstr =>
  let strings_buf := pstr.1
  POut.bind (parse_string strings_buf) fun pman =>
  POut.bind (sliceFrom strings_buf pman.2) fun s1 =>
  POut.bind (parse_string s1) fun pprod =>
  POut.bind (sliceFrom strings_buf (pman.2 + pprod.2)) fun s2 =>
  POut.bind (parse_string s2) fun pser =>
  POut.bind (readU8 pstr.2) fun pres1 =>
  POut.bind (readU8 pres1.2) fun ppa =>
  POut.bind (readU16le ppa.2) fun ppc =>
  POut.bind (readU8 ppc.2) fun pres2 =>
  POut.bind (readU8 pres2.2) fun pclk =>
  POut.bind (FT60xFifoClock.parse pclk.1) fun fifo_clock =>
  POut.bind (readU8 pclk.2) fun pmode =>
  POut.bind (FT60xFifoMode.parse pmode.1) fun fifo_mode =>
  POut.bind (readU8 pmode.2) fun pchan =>
  POut.bind (FT60xChannelConfig.parse pchan.1) fun channel_config =>
  POut.bind (readU16le pchan.2) fun pofs =>
  POut.bind (readU8 pofs.2) fun pbat =>
  POut.bind (readU8 pbat.2) fun pflash =>
  POut.bind (FT60xFlashRomDetection.parse pflash.1) fun flash_eeprom_detection =>
  POut.bind (readU32le pflash.2) fun pmsio =>
  POut.bind (readU32le pmsio.2) fun pgpio =>
  .ok
    { vid := pvid.1
      pid := ppid.1
      manufacturer := pman.1
      product_description := pprod.1
      serial_number := pser.1
      power_attributes := ppa.1
      power_consumption := ppc.1
      fifo_clock := fifo_clock
      fifo_mode := fifo_mode
      channel_config := channel_config
      optional_features_support := pofs.1
      battery_charging_gpio_config := pbat.1
      flash_eeprom_detection := flash_eeprom_detection
      msio_config := pmsio.1
      gpio_config := pgpio.1
      reserved1 := pres1.1
      reserved2 := pres2.1 }

/-- The per-character body written by `encode_string`: each character byte
followed by one zero pad byte. -/
def stringBody : List Nat → List Nat
  | [] => []
  | c :: t => c :: 0 :: stringBody t

/-- One Pascal-style string field as written by `encode_string`:
length-prefix byte `((len + 1) << 1) as u8`, type tag `0x3`, then the
character/pad pairs. -/
def encodeStringBytes (s : List Nat) : List Nat :=
  ((s.length + 1) * 2 % 256) :: 3 :: stringBody s

/-- `FT60xConfig::encode`.  The 128-byte string area is the three encoded
strings padded with zeros; if they do not fit, the `Cursor` writes into the
fixed `[u8; 128]` fail with a clean `Err` (modelled by the length test). -/
def FT60xConfig.encode (c : FT60xConfig) : POut (List Nat) :=
  let strs := encodeStringBytes c.manufacturer ++ encodeStringBytes c.product_description ++
    encodeStringBytes c.serial_number
  if 128 < strs.length then .err
  else
    .ok (u16le c.vid ++ u16le c.pid ++ (strs ++ List.replicate (128 - strs.length) 0) ++
      [c.reserved1, c.power_attributes] ++ u16le c.power_consumption ++
      [c.reserved2, c.fifo_clock.encode, c.fifo_mode.encode, c.channel_config.encode] ++
      u16le c.optional_features_support ++
      [c.battery_charging_gpio_config, c.flash_eeprom_detection.encode] ++
      u32le c.msio_config ++ u32le c.gpio_config)

theorem encodeStringBytes_length (s : List Nat) :
    (encodeStringBytes s).length = 2 * s.length + 2 := by
  induction s with
  | nil => rfl
  | cons c t ih =>
    simp only [encodeStringBytes, stringBody, List.length_cons] at ih ⊢
    omega

theorem readU16le_u16le (n : Nat) (h : n < 65536) (r : List Nat) :
    readU16le (u16le n ++ r) = .ok (n, r) := by
  simp only [u16le, readU16le, List.cons_append, List.nil_append, readU8, POut.bind_ok]
  congr 2
  omega

theorem readU32le_u32le (n : Nat) (h : n < 4294967296) (r : List Nat) :
    readU32le (u32le n ++ r) = .ok (n, r) := by
  simp only [u32le, readU32le, List.cons_append, List.nil_append, readU8, POut.bind_ok]
  congr 2
  omega

theorem readBytes_append (n : Nat) (a b : List Nat) (h : a.length = n) :
    readBytes n (a ++ b) = .ok (a, b) := by
  subst h
  simp [readBytes]

theorem drop_append_len (n : Nat) (a b : List Nat) (h : a.length = n) :
    (a ++ b).drop n = b := by
  subst h
  simp

theorem parseChars_ok (l : List Nat) : ∀ (n i : Nat),
    (∀ j, j < n → 2 * (i + j) + 3 < l.length ∧ l.getD (2 * (i + j) + 2) 0 < 128 ∧
      l.getD (2 * (i + j) + 3) 0 = 0) →
    parseChars l i n = .ok (List.ofFn fun j : Fin n => l.getD (2 * (i + j) + 2) 0) := by
  intro n
  induction n with
  | zero => intro i h; simp [parseChars]
  | succ n ih =>
    intro i h
    obtain ⟨h0a, h0b, h0c⟩ := h 0 (Nat.succ_pos n)
    simp only [Nat.add_zero] at h0a h0b h0c
    have hrec := ih (i + 1) (fun j hj => by
      have := h (j + 1) (by omega)
      constructor
      · have := this.1; omega
      constructor
      · have hb := this.2.1
        have harith : 2 * (i + 1 + j) + 2 = 2 * (i + (j + 1)) + 2 := by omega
        rw [harith]; exact hb
      · have hc := this.2.2
        have harith : 2 * (i + 1 + j) + 3 = 2 * (i + (j + 1)) + 3 := by omega
        rw [harith]; exact hc)
    simp only [parseChars]
    rw [if_neg (by omega), if_neg (by omega), if_neg (by omega), if_neg (by rw [h0c]; simp), hrec]
    simp only [POut.bind_ok]
    rw [List.ofFn_succ]
    refine congrArg POut.ok (congrArg₂ List.cons ?_ (congrArg List.ofFn (funext fun j => ?_)))
    · simp
    · congr 1
      simp only [Fin.val_succ]
      omega

theorem stringBody_length (s : List Nat) : (stringBody s).length = 2 * s.length := by
  induction s with
  | nil => rfl
  | cons c u ih => simp only [stringBody, List.length_cons] at ih ⊢; omega

theorem stringBody_getD (s t : List Nat) : ∀ j, j < s.length →
    (stringBody s ++ t).getD (2 * j) 0 = s.getD j 0 ∧
      (stringBody s ++ t).getD (2 * j + 1) 0 = 0 := by
  induction s with
  | nil => intro j hj; simp at hj
  | cons c s ih =>
    intro j hj
    match j with
    | 0 => simp [stringBody]
    | k + 1 =>
      have h2 : 2 * (k + 1) = (2 * k + 1) + 1 := by omega
      have h3 : 2 * (k + 1) + 1 = ((2 * k + 1) + 1) + 1 := by omega
      simp only [stringBody, List.cons_append, h2, h3, List.getD_cons_succ]
      have hk : k < s.length := by simp at hj; omega
      have := ih k hk
      exact ⟨this.1, this.2⟩

theorem ofFn_getD (s : List Nat) :
    (List.ofFn fun j : Fin s.length => s.getD (j : Nat) 0) = s := by
  induction s with
  | nil => simp
  | cons c t ih =>
    simp only [List.length_cons, List.ofFn_succ, Fin.val_zero, List.getD_cons_zero,
      Fin.val_succ, List.getD_cons_succ]
    rw [ih]

theorem parse_string_encode (s t : List Nat)
    (ha : ∀ j, j < s.length → s.getD j 0 < 128) (hl : s.length ≤ 62) :
    parse_string (encodeStringBytes s ++ t) = .ok (s, 2 * s.length + 2) := by
  have hoff : (s.length + 1) * 2 % 256 = 2 * s.length + 2 := by omega
  have hbl : (stringBody s).length = 2 * s.length := stringBody_length s
  have hlen : (encodeStringBytes s ++ t).length = 2 * s.length + 2 + t.length := by
    simp [encodeStringBytes_length]
  have hchars : parseChars (encodeStringBytes s ++ t) 0 s.length =
      .ok (List.ofFn fun j : Fin s.length =>
        (encodeStringBytes s ++ t).getD (2 * (0 + (j : Nat)) + 2) 0) := by
    apply parseChars_ok
    intro j hj
    have hsb := stringBody_getD s t j hj
    have e2 : 2 * (0 + j) + 2 = (2 * j + 1) + 1 := by omega
    have e3 : 2 * (0 + j) + 3 = ((2 * j + 1) + 1) + 1 := by omega
    refine ⟨by rw [hlen] at *; omega, ?_, ?_⟩
    · simp only [encodeStringBytes, List.cons_append, e2, List.getD_cons_succ]
      rw [hsb.1]
      exact ha j hj
    · simp only [encodeStringBytes, List.cons_append, e3, List.getD_cons_succ]
      exact hsb.2
  have hofn : (List.ofFn fun j : Fin s.length =>
      (encodeStringBytes s ++ t).getD (2 * (0 + (j : Nat)) + 2) 0) = s := by
    have heach : ∀ j : Fin s.length,
        (encodeStringBytes s ++ t).getD (2 * (0 + (j : Nat)) + 2) 0 = s.getD (j : Nat) 0 := by
      intro j
      have hsb := stringBody_getD s t j j.isLt
      have e2 : 2 * (0 + (j : Nat)) + 2 = (2 * (j : Nat) + 1) + 1 := by omega
      simp only [encodeStringBytes, List.cons_append, e2, List.getD_cons_succ]
      exact hsb.1
    rw [congrArg List.ofFn (funext heach)]
    exact ofFn_getD s
  simp only [parse_string, encodeStringBytes, List.cons_append, List.length_cons]
  rw [if_neg (by simp), List.getD_cons_zero]
  rw [if_neg (by omega)]
  rw [if_neg (by simp), if_neg (by simp [List.getD_cons_succ, List.getD_cons_zero])]
  have hlcomp : ((s.length + 1) * 2 % 256 - 2) / 2 = s.length := by omega
  rw [hlcomp]
  have hchars2 : parseChars ((s.length + 1) * 2 % 256 :: 3 :: (stringBody s ++ t)) 0 s.length =
      .ok s := by
    have : ((s.length + 1) * 2 % 256 :: 3 :: (stringBody s ++ t)) = encodeStringBytes s ++ t := by
      simp [encodeStringBytes]
    rw [this]
    rw [hchars, hofn]
  rw [hchars2]
  simp only [POut.bind_ok]
  rw [hoff]

theorem sliceFrom_append (n : Nat) (a b : List Nat) (h : a.length = n) :
    sliceFrom (a ++ b) n = .ok b := by
  subst h
  simp [sliceFrom]

/-- C7: Configuration round-trip.  For every `FT60xConfig` record whose three
strings are ASCII and together fit the 128-byte string area, and for every
value of each enum field (the record is universally quantified, so all enum
values are covered), `FT60xConfig::parse` applied to the output of
`FT60xConfig::encode` reproduces the original field values exactly; the
encoded output moreover has exactly 152 bytes.  The `u16`/`u32` bounds are
the Rust type invariants of the corresponding fields. -/
theorem ft60x_config_roundtrip (c : FT60xConfig) (bs : List Nat)
    (hvid : c.vid < 65536) (hpid : c.pid < 65536)
    (hpc : c.power_consumption < 65536) (hofs : c.optional_features_support < 65536)
    (hmsio : c.msio_config < 4294967296) (hgpio : c.gpio_config < 4294967296)
    (hman : ∀ j, j < c.manufacturer.length → c.manufacturer.getD j 0 < 128)
    (hprod : ∀ j, j < c.product_description.length → c.product_description.getD j 0 < 128)
    (hser : ∀ j, j < c.serial_number.length → c.serial_number.getD j 0 < 128)
    (hfit : 2 * c.manufacturer.length + 2 + (2 * c.product_description.length + 2) +
      (2 * c.serial_number.length + 2) ≤ 128)
    (henc : c.encode = .ok bs) :
    FT60xConfig.parse bs = .ok c ∧ bs.length = 152 := by
  obtain ⟨vid, pid, man, prod, ser, pa, pc, fclk, fmode, chan, ofs, bat, fl, msio, gpio, r1, r2⟩ := c
  simp only at hvid hpid hpc hofs hmsio hgpio hman hprod hser hfit
  have hml : man.length ≤ 62 := by omega
  have hpl : prod.length ≤ 62 := by omega
  have hsl : ser.length ≤ 62 := by omega
  have hstrslen : (encodeStringBytes man ++ encodeStringBytes prod ++
      encodeStringBytes ser).length =
      2 * man.length + 2 + (2 * prod.length + 2) + (2 * ser.length + 2) := by
    simp [encodeStringBytes_length]
    omega
  simp only [FT60xConfig.encode] at henc
  rw [if_neg (by rw [hstrslen]; omega)] at henc
  rw [POut.ok.injEq] at henc
  have hsalen : (encodeStringBytes man ++ (encodeStringBytes prod ++ (encodeStringBytes ser ++
      List.replicate (128 - (encodeStringBytes man ++ encodeStringBytes prod ++
        encodeStringBytes ser).length) 0))).length = 128 := by
    simp [encodeStringBytes_length, List.length_replicate]
    omega
  have hbs : bs = u16le vid ++ (u16le pid ++
      ((encodeStringBytes man ++ (encodeStringBytes prod ++ (encodeStringBytes ser ++
        List.replicate (128 - (encodeStringBytes man ++ encodeStringBytes prod ++
          encodeStringBytes ser).length) 0))) ++
      ([r1, pa] ++ (u16le pc ++ ([r2, FT60xFifoClock.encode fclk, FT60xFifoMode.encode fmode,
        FT60xChannelConfig.encode chan] ++ (u16le ofs ++ ([bat,
        FT60xFlashRomDetection.encode fl] ++ (u32le msio ++ u32le gpio)))))))) := by
    rw [← henc]
    simp [List.append_assoc]
  constructor
  · rw [hbs]
    simp only [FT60xConfig.parse]
    rw [readU16le_u16le vid hvid]
    simp only [POut.bind_ok]
    rw [readU16le_u16le pid hpid]
    simp only [POut.bind_ok]
    rw [readBytes_append 128 _ _ hsalen]
    simp only [POut.bind_ok]
    rw [parse_string_encode man _ hman hml]
    simp only [POut.bind_ok]
    rw [sliceFrom_append (2 * man.length + 2) _ _ (encodeStringBytes_length man)]
    simp only [POut.bind_ok]
    rw [parse_string_encode prod _ hprod hpl]
    simp only [POut.bind_ok]
    rw [show encodeStringBytes man ++ (encodeStringBytes prod ++ (encodeStringBytes ser ++
        List.replicate (128 - (encodeStringBytes man ++ encodeStringBytes prod ++
          encodeStringBytes ser).length) 0)) =
      (encodeStringBytes man ++ encodeStringBytes prod) ++ (encodeStringBytes ser ++
        List.replicate (128 - (encodeStringBytes man ++ encodeStringBytes prod ++
          encodeStringBytes ser).length) 0) from by simp [List.append_assoc]]
    rw [sliceFrom_append (2 * man.length + 2 + (2 * prod.length + 2)) _ _
      (by simp [encodeStringBytes_length]; try omega)]
    simp only [POut.bind_ok]
    rw [parse_string_encode ser _ hser hsl]
    simp only [POut.bind_ok]
    simp only [List.cons_append, List.nil_append, readU8, POut.bind_ok]
    rw [readU16le_u16le pc hpc]
    simp only [POut.bind_ok]
    rw [fifoClock_parse_encode, fifoMode_parse_encode, channelConfig_parse_encode]
    simp only [POut.bind_ok]
    rw [readU16le_u16le ofs hofs]
    simp only [POut.bind_ok]
    rw [flashRomDetection_parse_encode]
    simp only [POut.bind_ok]
    rw [readU32le_u32le msio hmsio]
    simp only [POut.bind_ok]
    rw [show u32le gpio = u32le gpio ++ ([] : List Nat) from (List.append_nil _).symm]
    rw [readU32le_u32le gpio hgpio]
    simp only [POut.bind_ok]
  · rw [hbs]
    simp [u16le, u32le, encodeStringBytes_length, List.length_replicate, hstrslen]
    omega

/-- Witness for C7: the round-trip theorem applied to one concrete record
(string lengths 0, 1 and 2; representative enum values). -/
theorem ft60x_config_roundtrip_witness :
    ∃ bs, FT60xConfig.encode
      { vid := 1027, pid := 24607, manufacturer := [], product_description := [65],
        serial_number := [66, 67], power_attributes := 224, power_consumption := 100,
        fifo_clock := .Clock100MHz, fifo_mode := .Mode600, channel_config := .OneChannel,
        optional_features_support := 2, battery_charging_gpio_config := 5,
        flash_eeprom_detection :=
          ⟨.Flash, .Exists, .Valid, .Valid, .Ignore, .Default, .Low, .High⟩,
        msio_config := 70000, gpio_config := 3, reserved1 := 0, reserved2 := 0 } = .ok bs ∧
    FT60xConfig.parse bs = .ok
      { vid := 1027, pid := 24607, manufacturer := [], product_description := [65],
        serial_number := [66, 67], power_attributes := 224, power_consumption := 100,
        fifo_clock := .Clock100MHz, fifo_mode := .Mode600, channel_config := .OneChannel,
        optional_features_support := 2, battery_charging_gpio_config := 5,
        flash_eeprom_detection :=
          ⟨.Flash, .Exists, .Valid, .Valid, .Ignore, .Default, .Low, .High⟩,
        msio_config := 70000, gpio_config := 3, reserved1 := 0, reserved2 := 0 } ∧
    bs.length = 152 := by
  refine ⟨_, rfl, ?_⟩
  exact ft60x_config_roundtrip _ _ (by decide) (by decide) (by decide) (by decide)
    (by decide) (by decide) (by decide) (by decide) (by decide) (by decide) rfl

/-- C10: `FT60xConfig::parse` is not total over 152-byte inputs.  The
all-zero record makes the first string field's length-prefix byte 0, so the
`u8` subtraction `offset - 2` in `parse_string` underflows (a Rust panic
under overflow checking); a record whose first length-prefix byte is 200
drives the character loop's index `2*i+2` past the 128-byte string area, an
out-of-bounds index panic.  Both concrete inputs panic instead of returning
an error. -/
theorem ft60x_config_parse_not_total :
    FT60xConfig.parse (List.replicate 152 0) = .panicked ∧
    FT60xConfig.parse (List.replicate 4 0 ++ [200, 3] ++ List.replicate 146 0) = .panicked := by
  constructor
  · decide
  · decide

/-- Wrapping 64-bit `usize` subtraction, used to model the release-mode
semantics of `self.next_read_pos - 1` in `RingBufConsumer::cancel` (under
overflow checking the same underflow is a Rust panic). -/
def usizeSub (a b : Nat) : Nat := (a + (2 ^ 64 - b % 2 ^ 64)) % 2 ^ 64

/-- `src/ringbuf.rs`: `struct RingBuf<T>`.  `one_was_dropped` lives in the
channel state below; here only the construction-time data. -/
structure RingBuf (T : Type) where
  buffer : List T
  capacity : Nat

/-- `RingBuf::new`: `assert!(capacity != 1, ..)` then
`vec![default; capacity]`.  A failed assertion is a Rust panic, modelled as
`none`. -/
def RingBuf.new (T : Type) (capacity : Nat) (default : T) : Option (RingBuf T) :=
  if capacity = 1 then none
  else some { buffer := List.replicate capacity default, capacity := capacity }

/-- Phase of the producer thread inside/between `with_next_buffer` calls:
`idle` between calls; `scan cand` about to run the loop body with candidate
`last_read_pos = cand`; `recvWait` blocked on `self.last_read_pos.iter()`;
`writeReady` after the loop (break or iterator end), about to write the slot
and publish; `panicked` after a failed `unwrap`. -/
inductive PPhase where
  | idle
  | scan (cand : Nat)
  | recvWait
  | writeReady
  | panicked
  deriving DecidableEq

/-- Phase of the consumer thread, symmetric to `PPhase`; `readReady` is the
post-loop point about to read the slot and acknowledge. -/
inductive CPhase where
  | idle
  | scan (cand : Nat)
  | recvWait
  | readReady
  | panicked
  deriving DecidableEq

/-- Joint state of one `create_channel` pair from `src/ringbuf.rs`.

The slot storage holds `Option Nat`: `none` is the untouched default value,
and the producer's `j`-th completed `with_next_buffer` writes the token
`some j` (an abstract distinct value per send), so FIFO delivery is
observable.  The two mpsc queues are FIFO lists; `*_alive = false` means
that endpoint has been dropped (its `Sender`/`Receiver` halves are gone, so
a `send(..)` to it fails and the `unwrap` panics, and a blocked `iter()`
terminates once the queue is drained).  `p_results`/`c_results` record the
outcome of each completed `with_next_buffer` call (`true` = `Ok`,
`false` = `Err(())`), and `c_received` the slot contents observed by the
consumer callback, in order. -/
structure RBState where
  capacity : Nat
  flag : Bool
  slots : List (Option Nat)
  p_next_write_pos : Nat
  p_lastknown_last_read_pos : Nat
  p_phase : PPhase
  p_alive : Bool
  p_results : List Bool
  c_next_read_pos : Nat
  c_lastknown_next_write_pos : Nat
  c_phase : CPhase
  c_alive : Bool
  c_results : List Bool
  feed_last_read_pos : List Nat
  feed_next_write_pos : List Nat
  c_received : List (Option Nat)
  deriving DecidableEq

/-- The atomic micro-steps of the two endpoint threads and of
cancel/drop.  Each label is one interleaving-relevant step of the source
code of `src/ringbuf.rs`. -/
inductive RBLabel where
  | pCall
  | pScan
  | pRecv
  | pWrite
  | cCall
  | cScan
  | cRecv
  | cRead
  | pCancel
  | pDrop
  | cCancel
  | cDrop
  deriving DecidableEq

/-- One micro-step of the channel pair; `none` when the label is not
enabled (wrong phase, endpoint gone, or the thread is blocked on an empty
queue whose sender is still alive).

* `pCall`: enter `RingBufProducer::with_next_buffer`; the first loop
  candidate is `once(self.lastknown_last_read_pos)`.
* `pScan`: one loop body run: check `one_was_dropped` (return `Err(())`),
  else test `(next_write_pos - last_read_pos) < capacity` (Rust `usize`
  subtraction; on every reachable evaluation the candidate is ≤
  `next_write_pos`, see the invariant below) and break, else go wait on the
  feed.
* `pRecv`: take the next feed message, or — if the consumer is gone and the
  queue drained — fall through the ended iterator to the write.
* `pWrite`: write slot `next_write_pos % capacity`, increment, and
  `send(next_write_pos).unwrap()` (panic if the consumer receiver is gone).
* `cCall`/`cScan`/`cRecv`/`cRead`: the consumer symmetrically; `cScan`
  tests `next_write_pos > next_read_pos`; `cRead` runs the callback on slot
  `next_read_pos % capacity`, then `send(next_read_pos).unwrap()`, then
  increments.
* `pCancel`/`cCancel`: `cancel(&mut self)` — store the flag, then send the
  final position (`next_write_pos`, resp. the wrapping
  `next_read_pos - 1`), panicking on `unwrap` if the peer is gone.
* `pDrop`/`cDrop`: `Drop::drop` = `cancel` plus releasing the endpoint. -/
def rbStep : RBLabel → RBState → Option RBState
  | .pCall, s =>
    if s.p_phase = .idle ∧ s.p_alive then
      some { s with p_phase := .scan s.p_lastknown_last_read_pos }
    else none
  | .pScan, s =>
    match s.p_phase with
    | .scan cand =>
      if s.flag then some { s with p_phase := .idle, p_results := s.p_results ++ [false] }
      else if s.p_next_write_pos - cand < s.capacity then
        some { s with p_lastknown_last_read_pos := cand, p_phase := .writeReady }
      else some { s with p_phase := .recvWait }
    | _ => none
  | .pRecv, s =>
    match s.p_phase with
    | .recvWait =>
      match s.feed_last_read_pos with
      | a :: rest => some { s with feed_last_read_pos := rest, p_phase := .scan a }
      | [] => if s.c_alive then none else some { s with p_phase := .writeReady }
    | _ => none
  | .pWrite, s =>
    match s.p_phase with
    | .writeReady =>
      if s.c_alive then
        some { s with
          slots := s.slots.set (s.p_next_write_pos % s.capacity) (some s.p_next_write_pos),
          p_next_write_pos := s.p_next_write_pos + 1,
          feed_next_write_pos := s.feed_next_write_pos ++ [s.p_next_write_pos + 1],
          p_results := s.p_results ++ [true],
          p_phase := .idle }
      else
        some { s with
          slots := s.slots.set (s.p_next_write_pos % s.capacity) (some s.p_next_write_pos),
          p_next_write_pos := s.p_next_write_pos + 1,
          p_phase := .panicked }
    | _ => none
  | .cCall, s =>
    if s.c_phase = .idle ∧ s.c_alive then
      some { s with c_phase := .scan s.c_lastknown_next_write_pos }
    else none
  | .cScan, s =>
    match s.c_phase with
    | .scan cand =>
      if s.flag then some { s with c_phase := .idle, c_results := s.c_results ++ [false] }
      else if s.c_next_read_pos < cand then
        some { s with c_lastknown_next_write_pos := cand, c_phase := .readReady }
      else some { s with c_phase := .recvWait }
    | _ => none
  | .cRecv, s =>
    match s.c_phase with
    | .recvWait =>
      match s.feed_next_write_pos with
      | v :: rest => some { s with feed_next_write_pos := rest, c_phase := .scan v }
      | [] => if s.p_alive then none else some { s with c_phase := .readReady }
    | _ => none
  | .cRead, s =>
    match s.c_phase with
    | .readReady =>
      if s.p_alive then
        some { s with
          c_received := s.c_received ++ [s.slots.getD (s.c_next_read_pos % s.capacity) none],
          feed_last_read_pos := s.feed_last_read_pos ++ [s.c_next_read_pos],
          c_next_read_pos := s.c_next_read_pos + 1,
          c_results := s.c_results ++ [true],
          c_phase := .idle }
      else
        some { s with
          c_received := s.c_received ++ [s.slots.getD (s.c_next_read_pos % s.capacity) none],
          c_phase := .panicked }
    | _ => none
  | .pCancel, s =>
    if s.p_phase = .idle ∧ s.p_alive then
      if s.c_alive then
        some { s with
          flag := true,
          feed_next_write_pos := s.feed_next_write_pos ++ [s.p_next_write_pos] }
      else some { s with flag := true, p_phase := .panicked }
    else none
  | .pDrop, s =>
    if s.p_phase = .idle ∧ s.p_alive then
      if s.c_alive then
        some { s with
          flag := true,
          p_alive := false,
          feed_next_write_pos := s.feed_next_write_pos ++ [s.p_next_write_pos] }
      else some { s with flag := true, p_alive := false, p_phase := .panicked }
    else none
  | .cCancel, s =>
    if s.c_phase = .idle ∧ s.c_alive then
      if s.p_alive then
        some { s with
          flag := true,
          feed_last_read_pos := s.feed_last_read_pos ++ [usizeSub s.c_next_read_pos 1] }
      else some { s with flag := true, c_phase := .panicked }
    else none
  | .cDrop, s =>
    if s.c_phase = .idle ∧ s.c_alive then
      if s.p_alive then
        some { s with
          flag := true,
          c_alive := false,
          feed_last_read_pos := s.feed_last_read_pos ++ [usizeSub s.c_next_read_pos 1] }
      else some { s with flag := true, c_alive := false, c_phase := .panicked }
    else none

/-- Initial state of `RingBuf::create_channel_with_default_value(N, d)`:
both position counters and both `lastknown` mirrors start at 0, both queues
empty, the flag clear, all slots holding the untouched default. -/
def rbInit (N : Nat) : RBState :=
  { capacity := N
    flag := false
    slots := List.replicate N none
    p_next_write_pos := 0
    p_lastknown_last_read_pos := 0
    p_phase := .idle
    p_alive := true
    p_results := []
    c_next_read_pos := 0
    c_lastknown_next_write_pos := 0
    c_phase := .idle
    c_alive := true
    c_results := []
    feed_last_read_pos := []
    feed_next_write_pos := []
    c_received := [] }

/-- One step of the channel pair under some label. -/
def RBStep (s s1 : RBState) : Prop := ∃ l, rbStep l s = some s1

/-- States reachable from a fresh capacity-`N` channel pair under any
interleaving of the two endpoint threads and cancel/drop calls. -/
def RBReachable (N : Nat) (s : RBState) : Prop :=
  Relation.ReflTransGen RBStep (rbInit N) s

/-- Run an explicit label trace (used to exhibit concrete reachable
states). -/
def rbRun (s : RBState) : List RBLabel → Option RBState
  | [] => some s
  | l :: ls =>
    match rbStep l s with
    | some s1 => rbRun s1 ls
    | none => none

theorem rbRun_reachable : ∀ (ls : List RBLabel) (s s1 : RBState),
    rbRun s ls = some s1 → Relation.ReflTransGen RBStep s s1 := by
  intro ls
  induction ls with
  | nil => intro s s1 h; simp [rbRun] at h; subst h; exact Relation.ReflTransGen.refl
  | cons l ls ih =>
    intro s s1 h
    simp only [rbRun] at h
    cases hstep : rbStep l s with
    | none => rw [hstep] at h; simp at h
    | some s2 =>
      rw [hstep] at h
      exact Relation.ReflTransGen.head ⟨l, hstep⟩ (ih s2 s1 h)

/-- What a slot of the ring holds relative to the producer position `w`:
`none` iff position `i` has never been written (`w ≤ i`), otherwise the
token of the most recent write into that slot — a position `v` congruent to
`i` mod `N` inside the window `(w - N, w)`. -/
def SlotSpec (N w : Nat) (o : Option Nat) (i : Nat) : Prop :=
  match o with
  | none => w ≤ i
  | some v => v < w ∧ v % N = i ∧ w ≤ v + N

/-- Inductive invariant of the channel pair (capacity `N`).  It packages the
position invariant `read_pos ≤ write_pos ≤ read_pos + N`, the staleness
bounds on the two `lastknown` mirrors, on queued feed messages and on loop
candidates, the slot-content description, the FIFO record of the consumer,
and the bookkeeping needed to show the iterator fall-through branches
unreachable (a dead endpoint implies the flag is set and its final feed
message was queued first). -/
structure RBInv (N : Nat) (s : RBState) : Prop where
  cap : s.capacity = N
  len : s.slots.length = N
  hrw : s.c_next_read_pos ≤ s.p_next_write_pos
  hwr : s.p_next_write_pos ≤ s.c_next_read_pos + N
  hwrt : s.p_phase = .writeReady → s.p_next_write_pos < s.c_next_read_pos + N
  hrdy : s.c_phase = .readReady → s.c_next_read_pos < s.p_next_write_pos
  hpl : s.p_lastknown_last_read_pos ≤ s.c_next_read_pos
  hlrp : ∀ a ∈ s.feed_last_read_pos, s.flag = true ∨ a ≤ s.c_next_read_pos
  hps : ∀ a, s.p_phase = .scan a → s.flag = true ∨ a ≤ s.c_next_read_pos
  hcl : s.c_lastknown_next_write_pos ≤ s.p_next_write_pos
  hnwp : ∀ v ∈ s.feed_next_write_pos, v ≤ s.p_next_write_pos
  hcs : ∀ v, s.c_phase = .scan v → v ≤ s.p_next_write_pos
  hfp : s.p_phase = .recvWait → s.c_alive = false → s.feed_last_read_pos ≠ []
  hfc : s.c_phase = .recvWait → s.p_alive = false → s.feed_next_write_pos ≠ []
  hgp : s.p_alive = false → s.flag = true
  hgc : s.c_alive = false → s.flag = true
  hdp : s.p_alive = false → s.p_phase = .idle ∨ s.p_phase = .panicked
  hdc : s.c_alive = false → s.c_phase = .idle ∨ s.c_phase = .panicked
  hslot : ∀ i, i < N → SlotSpec N s.p_next_write_pos (s.slots.getD i none) i
  hrcv : s.c_received = (List.range s.c_received.length).map some
  hrlen : s.c_phase ≠ .panicked → s.c_received.length = s.c_next_read_pos
  hrbnd : s.c_received.length ≤ s.p_next_write_pos
  hcnt : s.c_next_read_pos = s.c_results.count true

theorem rbInv_init (N : Nat) : RBInv N (rbInit N) := by
  refine ⟨rfl, by simp [rbInit], ?_, ?_, ?_, ?_, ?_, ?_, ?_, ?_, ?_, ?_, ?_, ?_, ?_, ?_, ?_,
    ?_, ?_, ?_, ?_, ?_, ?_⟩ <;>
    simp [rbInit, SlotSpec]

theorem rbInv_pCall (N : Nat) (s s1 : RBState) (hI : RBInv N s)
    (hstep : rbStep .pCall s = some s1) : RBInv N s1 := by
  simp only [rbStep] at hstep
  split at hstep
  · rename_i hcond
    rw [Option.some.injEq] at hstep
    subst hstep
    obtain ⟨hph, hal⟩ := hcond
    exact {
      cap := hI.cap
      len := hI.len
      hrw := hI.hrw
      hwr := hI.hwr
      hwrt := by intro h; simp at h
      hrdy := hI.hrdy
      hpl := hI.hpl
      hlrp := hI.hlrp
      hps := by
        intro a ha
        simp only [PPhase.scan.injEq] at ha
        exact Or.inr (ha ▸ hI.hpl)
      hcl := hI.hcl
      hnwp := hI.hnwp
      hcs := hI.hcs
      hfp := by intro h; simp at h
      hfc := hI.hfc
      hgp := hI.hgp
      hgc := hI.hgc
      hdp := by intro h; rw [hal] at h; simp at h
      hdc := hI.hdc
      hslot := hI.hslot
      hrcv := hI.hrcv
      hrlen := hI.hrlen
      hrbnd := hI.hrbnd
      hcnt := hI.hcnt }
  · exact absurd hstep (by simp)

theorem rbInv_cCall (N : Nat) (s s1 : RBState) (hI : RBInv N s)
    (hstep : rbStep .cCall s = some s1) : RBInv N s1 := by
  simp only [rbStep] at hstep
  split at hstep
  · rename_i hcond
    rw [Option.some.injEq] at hstep
    subst hstep
    obtain ⟨hph, hal⟩ := hcond
    exact {
      cap := hI.cap
      len := hI.len
      hrw := hI.hrw
      hwr := hI.hwr
      hwrt := hI.hwrt
      hrdy := by intro h; simp at h
      hpl := hI.hpl
      hlrp := hI.hlrp
      hps := hI.hps
      hcl := hI.hcl
      hnwp := hI.hnwp
      hcs := by
        intro v hv
        simp only [CPhase.scan.injEq] at hv
        exact hv ▸ hI.hcl
      hfp := hI.hfp
      hfc := by intro h; simp at h
      hgp := hI.hgp
      hgc := hI.hgc
      hdp := hI.hdp
      hdc := by intro h; rw [hal] at h; simp at h
      hslot := hI.hslot
      hrcv := hI.hrcv
      hrlen := fun _ => hI.hrlen (by rw [hph]; simp)
      hrbnd := hI.hrbnd
      hcnt := hI.hcnt }
  · exact absurd hstep (by simp)

theorem rbInv_pScan (N : Nat) (s s1 : RBState) (hI : RBInv N s)
    (hstep : rbStep .pScan s = some s1) : RBInv N s1 := by
  simp only [rbStep] at hstep
  split at hstep
  case h_2 => exact absurd hstep (by simp)
  rename_i cand heq
  split at hstep
  · -- one_was_dropped observed: return Err(())
    rename_i hflag
    rw [Option.some.injEq] at hstep
    subst hstep
    exact {
      cap := hI.cap
      len := hI.len
      hrw := hI.hrw
      hwr := hI.hwr
      hwrt := by intro h; simp at h
      hrdy := hI.hrdy
      hpl := hI.hpl
      hlrp := hI.hlrp
      hps := by intro a ha; simp at ha
      hcl := hI.hcl
      hnwp := hI.hnwp
      hcs := hI.hcs
      hfp := by intro h; simp at h
      hfc := hI.hfc
      hgp := hI.hgp
      hgc := hI.hgc
      hdp := fun _ => Or.inl rfl
      hdc := hI.hdc
      hslot := hI.hslot
      hrcv := hI.hrcv
      hrlen := hI.hrlen
      hrbnd := hI.hrbnd
      hcnt := hI.hcnt }
  rename_i hflag
  split at hstep
  · -- slot available: break with this candidate
    rename_i hcond
    rw [Option.some.injEq] at hstep
    subst hstep
    have hcr : cand ≤ s.c_next_read_pos := by
      rcases hI.hps cand heq with h | h
      · exact absurd h hflag
      · exact h
    exact {
      cap := hI.cap
      len := hI.len
      hrw := hI.hrw
      hwr := hI.hwr
      hwrt := by
        intro _
        have hcap := hI.cap
        have h1 := hI.hrw
        dsimp only
        omega
      hrdy := hI.hrdy
      hpl := hcr
      hlrp := hI.hlrp
      hps := by intro a ha; simp at ha
      hcl := hI.hcl
      hnwp := hI.hnwp
      hcs := hI.hcs
      hfp := by intro h; simp at h
      hfc := hI.hfc
      hgp := hI.hgp
      hgc := hI.hgc
      hdp := by
        intro h
        rcases hI.hdp h with h2 | h2 <;> rw [heq] at h2 <;> simp at h2
      hdc := hI.hdc
      hslot := hI.hslot
      hrcv := hI.hrcv
      hrlen := hI.hrlen
      hrbnd := hI.hrbnd
      hcnt := hI.hcnt }
  · -- no slot available: go wait on the feed
    rename_i hcond
    rw [Option.some.injEq] at hstep
    subst hstep
    exact {
      cap := hI.cap
      len := hI.len
      hrw := hI.hrw
      hwr := hI.hwr
      hwrt := by intro h; simp at h
      hrdy := hI.hrdy
      hpl := hI.hpl
      hlrp := hI.hlrp
      hps := by intro a ha; simp at ha
      hcl := hI.hcl
      hnwp := hI.hnwp
      hcs := hI.hcs
      hfp := fun _ hc => absurd (hI.hgc hc) hflag
      hfc := hI.hfc
      hgp := hI.hgp
      hgc := hI.hgc
      hdp := by
        intro h
        rcases hI.hdp h with h2 | h2 <;> rw [heq] at h2 <;> simp at h2
      hdc := hI.hdc
      hslot := hI.hslot
      hrcv := hI.hrcv
      hrlen := hI.hrlen
      hrbnd := hI.hrbnd
      hcnt := hI.hcnt }

theorem rbInv_cScan (N : Nat) (s s1 : RBState) (hI : RBInv N s)
    (hstep : rbStep .cScan s = some s1) : RBInv N s1 := by
  simp only [rbStep] at hstep
  split at hstep
  case h_2 => exact absurd hstep (by simp)
  rename_i cand heq
  split at hstep
  · -- one_was_dropped observed: return Err(())
    rename_i hflag
    rw [Option.some.injEq] at hstep
    subst hstep
    exact {
      cap := hI.cap
      len := hI.len
      hrw := hI.hrw
      hwr := hI.hwr
      hwrt := hI.hwrt
      hrdy := by intro h; simp at h
      hpl := hI.hpl
      hlrp := hI.hlrp
      hps := hI.hps
      hcl := hI.hcl
      hnwp := hI.hnwp
      hcs := by intro v hv; simp at hv
      hfp := hI.hfp
      hfc := by intro h; simp at h
      hgp := hI.hgp
      hgc := hI.hgc
      hdp := hI.hdp
      hdc := fun _ => Or.inl rfl
      hslot := hI.hslot
      hrcv := hI.hrcv
      hrlen := fun _ => hI.hrlen (by rw [heq]; simp)
      hrbnd := hI.hrbnd
      hcnt := by
        dsimp only
        rw [List.count_append]
        simpa using hI.hcnt }
  rename_i hflag
  split at hstep
  · -- a published slot is available: break with this candidate
    rename_i hcond
    rw [Option.some.injEq] at hstep
    subst hstep
    have hcw : cand ≤ s.p_next_write_pos := hI.hcs cand heq
    exact {
      cap := hI.cap
      len := hI.len
      hrw := hI.hrw
      hwr := hI.hwr
      hwrt := hI.hwrt
      hrdy := by intro _; dsimp only; omega
      hpl := hI.hpl
      hlrp := hI.hlrp
      hps := hI.hps
      hcl := hcw
      hnwp := hI.hnwp
      hcs := by intro v hv; simp at hv
      hfp := hI.hfp
      hfc := by intro h; simp at h
      hgp := hI.hgp
      hgc := hI.hgc
      hdp := hI.hdp
      hdc := by
        intro h
        rcases hI.hdc h with h2 | h2 <;> rw [heq] at h2 <;> simp at h2
      hslot := hI.hslot
      hrcv := hI.hrcv
      hrlen := fun _ => hI.hrlen (by rw [heq]; simp)
      hrbnd := hI.hrbnd
      hcnt := hI.hcnt }
  · -- nothing published yet: go wait on the feed
    rename_i hcond
    rw [Option.some.injEq] at hstep
    subst hstep
    exact {
      cap := hI.cap
      len := hI.len
      hrw := hI.hrw
      hwr := hI.hwr
      hwrt := hI.hwrt
      hrdy := by intro h; simp at h
      hpl := hI.hpl
      hlrp := hI.hlrp
      hps := hI.hps
      hcl := hI.hcl
      hnwp := hI.hnwp
      hcs := by intro v hv; simp at hv
      hfp := hI.hfp
      hfc := fun _ hp => absurd (hI.hgp hp) hflag
      hgp := hI.hgp
      hgc := hI.hgc
      hdp := hI.hdp
      hdc := by
        intro h
        rcases hI.hdc h with h2 | h2 <;> rw [heq] at h2 <;> simp at h2
      hslot := hI.hslot
      hrcv := hI.hrcv
      hrlen := fun _ => hI.hrlen (by rw [heq]; simp)
      hrbnd := hI.hrbnd
      hcnt := hI.hcnt }

theorem rbInv_pRecv (N : Nat) (s s1 : RBState) (hI : RBInv N s)
    (hstep : rbStep .pRecv s = some s1) : RBInv N s1 := by
  simp only [rbStep] at hstep
  split at hstep
  case h_2 => exact absurd hstep (by simp)
  rename_i hph
  split at hstep
  · -- a feed message is available: next loop iteration with it
    rename_i a rest heqf
    rw [Option.some.injEq] at hstep
    subst hstep
    exact {
      cap := hI.cap
      len := hI.len
      hrw := hI.hrw
      hwr := hI.hwr
      hwrt := by intro h; simp at h
      hrdy := hI.hrdy
      hpl := hI.hpl
      hlrp := fun x hx => hI.hlrp x (by rw [heqf]; exact List.mem_cons_of_mem a hx)
      hps := by
        intro b hb
        simp only [PPhase.scan.injEq] at hb
        exact hb ▸ hI.hlrp a (by rw [heqf]; exact List.mem_cons_self a rest)
      hcl := hI.hcl
      hnwp := hI.hnwp
      hcs := hI.hcs
      hfp := by intro h; simp at h
      hfc := hI.hfc
      hgp := hI.hgp
      hgc := hI.hgc
      hdp := by
        intro h
        rcases hI.hdp h with h2 | h2 <;> rw [hph] at h2 <;> simp at h2
      hdc := hI.hdc
      hslot := hI.hslot
      hrcv := hI.hrcv
      hrlen := hI.hrlen
      hrbnd := hI.hrbnd
      hcnt := hI.hcnt }
  · -- empty queue: blocked while the consumer lives, else the iterator has
    -- ended; that fall-through is unreachable by the invariant (the
    -- consumer's cancel queues its final message before disconnecting)
    rename_i heqf
    split at hstep
    · exact absurd hstep (by simp)
    · rename_i hcal
      exact absurd heqf (hI.hfp hph (by
        cases hca : s.c_alive
        · rfl
        · exact absurd (by rw [hca]) hcal))

theorem rbInv_cRecv (N : Nat) (s s1 : RBState) (hI : RBInv N s)
    (hstep : rbStep .cRecv s = some s1) : RBInv N s1 := by
  simp only [rbStep] at hstep
  split at hstep
  case h_2 => exact absurd hstep (by simp)
  rename_i hph
  split at hstep
  · -- a feed message is available: next loop iteration with it
    rename_i v rest heqf
    rw [Option.some.injEq] at hstep
    subst hstep
    exact {
      cap := hI.cap
      len := hI.len
      hrw := hI.hrw
      hwr := hI.hwr
      hwrt := hI.hwrt
      hrdy := by intro h; simp at h
      hpl := hI.hpl
      hlrp := hI.hlrp
      hps := hI.hps
      hcl := hI.hcl
      hnwp := fun x hx => hI.hnwp x (by rw [heqf]; exact List.mem_cons_of_mem v hx)
      hcs := by
        intro b hb
        simp only [CPhase.scan.injEq] at hb
        exact hb ▸ hI.hnwp v (by rw [heqf]; exact List.mem_cons_self v rest)
      hfp := hI.hfp
      hfc := by intro h; simp at h
      hgp := hI.hgp
      hgc := hI.hgc
      hdp := hI.hdp
      hdc := by
        intro h
        rcases hI.hdc h with h2 | h2 <;> rw [hph] at h2 <;> simp at h2
      hslot := hI.hslot
      hrcv := hI.hrcv
      hrlen := fun _ => hI.hrlen (by rw [hph]; simp)
      hrbnd := hI.hrbnd
      hcnt := hI.hcnt }
  · -- empty queue: blocked while the producer lives; the fall-through is
    -- unreachable (the producer's cancel queues its final message first)
    rename_i heqf
    split at hstep
    · exact absurd hstep (by simp)
    · rename_i hpal
      exact absurd heqf (hI.hfc hph (by
        cases hpa : s.p_alive
        · rfl
        · exact absurd (by rw [hpa]) hpal))

theorem getD_set_self (l : List (Option Nat)) (i : Nat) (a : Option Nat) (h : i < l.length) :
    (l.set i a).getD i none = a := by
  simp [List.getD_eq_getElem?_getD, List.getElem?_set_eq_of_lt a h]

theorem getD_set_ne (l : List (Option Nat)) (i j : Nat) (a : Option Nat) (h : i ≠ j) :
    (l.set i a).getD j none = l.getD j none := by
  simp [List.getD_eq_getElem?_getD, List.getElem?_set_ne h]

theorem rbInv_pWrite (N : Nat) (hN : 2 ≤ N) (s s1 : RBState) (hI : RBInv N s)
    (hstep : rbStep .pWrite s = some s1) : RBInv N s1 := by
  simp only [rbStep] at hstep
  split at hstep
  case h_2 => exact absurd hstep (by simp)
  rename_i hph
  have hwlt : s.p_next_write_pos < s.c_next_read_pos + N := hI.hwrt hph
  have hcap := hI.cap
  have hlen := hI.len
  have hslot1 : ∀ i, i < N → SlotSpec N (s.p_next_write_pos + 1)
      ((s.slots.set (s.p_next_write_pos % s.capacity) (some s.p_next_write_pos)).getD i none)
      i := by
    intro i hi
    rw [hcap]
    by_cases hieq : i = s.p_next_write_pos % N
    · subst hieq
      rw [getD_set_self _ _ _ (by rw [hlen]; exact Nat.mod_lt _ (by omega))]
      exact ⟨Nat.lt_succ_self _, rfl, by omega⟩
    · rw [getD_set_ne _ _ _ _ (fun h => hieq h.symm)]
      have hsp := hI.hslot i hi
      rcases hgd : s.slots.getD i none with _ | v
      · rw [hgd] at hsp
        simp only [SlotSpec] at hsp ⊢
        rcases Nat.lt_or_ge s.p_next_write_pos N with hwN | hwN
        · have hmod : s.p_next_write_pos % N = s.p_next_write_pos := Nat.mod_eq_of_lt hwN
          omega
        · omega
      · rw [hgd] at hsp
        simp only [SlotSpec] at hsp ⊢
        obtain ⟨h1, h2, h3⟩ := hsp
        refine ⟨by omega, h2, ?_⟩
        rcases Nat.lt_or_ge s.p_next_write_pos (v + N) with h4 | h4
        · omega
        · exfalso
          have hveq : s.p_next_write_pos = v + N := by omega
          have : s.p_next_write_pos % N = v % N := by
            rw [hveq, Nat.add_mod_right]
          omega
  split at hstep
  · -- send(next_write_pos).unwrap() succeeds: publish and return Ok
    rename_i hcal
    rw [Option.some.injEq] at hstep
    subst hstep
    exact {
      cap := hI.cap
      len := by dsimp only; rw [List.length_set]; exact hI.len
      hrw := by have := hI.hrw; dsimp only; omega
      hwr := by dsimp only; omega
      hwrt := by intro h; simp at h
      hrdy := by intro h; have := hI.hrdy h; dsimp only; omega
      hpl := hI.hpl
      hlrp := hI.hlrp
      hps := by intro a ha; simp at ha
      hcl := by have := hI.hcl; dsimp only; omega
      hnwp := by
        intro v hv
        dsimp only at hv ⊢
        rcases List.mem_append.1 hv with h | h
        · have := hI.hnwp v h; omega
        · simp at h; omega
      hcs := by intro v hv; have := hI.hcs v hv; dsimp only; omega
      hfp := by intro h; simp at h
      hfc := by intro _ _; simp
      hgp := hI.hgp
      hgc := hI.hgc
      hdp := fun _ => Or.inl rfl
      hdc := hI.hdc
      hslot := hslot1
      hrcv := hI.hrcv
      hrlen := hI.hrlen
      hrbnd := by have := hI.hrbnd; dsimp only; omega
      hcnt := hI.hcnt }
  · -- send(next_write_pos).unwrap() panics: the consumer receiver is gone
    rename_i hcal
    rw [Option.some.injEq] at hstep
    subst hstep
    exact {
      cap := hI.cap
      len := by dsimp only; rw [List.length_set]; exact hI.len
      hrw := by have := hI.hrw; dsimp only; omega
      hwr := by dsimp only; omega
      hwrt := by intro h; simp at h
      hrdy := by intro h; have := hI.hrdy h; dsimp only; omega
      hpl := hI.hpl
      hlrp := hI.hlrp
      hps := by intro a ha; simp at ha
      hcl := by have := hI.hcl; dsimp only; omega
      hnwp := by intro v hv; have := hI.hnwp v hv; dsimp only; omega
      hcs := by intro v hv; have := hI.hcs v hv; dsimp only; omega
      hfp := by intro h; simp at h
      hfc := hI.hfc
      hgp := hI.hgp
      hgc := hI.hgc
      hdp := fun _ => Or.inr rfl
      hdc := hI.hdc
      hslot := hslot1
      hrcv := hI.hrcv
      hrlen := hI.hrlen
      hrbnd := by have := hI.hrbnd; dsimp only; omega
      hcnt := hI.hcnt }

/-- Two positions congruent mod `N` lying in one window of width `N`
below `w` coincide. -/
theorem mod_window_eq (N v r w : Nat) (h1 : v % N = r % N) (h2 : v < w)
    (h3 : w ≤ v + N) (h4 : r < w) (h5 : w ≤ r + N) : v = r := by
  have hmulv := Nat.div_add_mod v N
  have hmulr := Nat.div_add_mod r N
  rcases Nat.lt_trichotomy (v / N) (r / N) with h | h | h
  · have hm := Nat.mul_le_mul_left N (Nat.succ_le_of_lt h)
    rw [Nat.mul_succ] at hm
    omega
  · have hEq : N * (v / N) = N * (r / N) := by rw [h]
    omega
  · have hm := Nat.mul_le_mul_left N (Nat.succ_le_of_lt h)
    rw [Nat.mul_succ] at hm
    omega

theorem rbInv_cRead (N : Nat) (hN : 2 ≤ N) (s s1 : RBState) (hI : RBInv N s)
    (hstep : rbStep .cRead s = some s1) : RBInv N s1 := by
  simp only [rbStep] at hstep
  split at hstep
  case h_2 => exact absurd hstep (by simp)
  rename_i hph
  have hlt : s.c_next_read_pos < s.p_next_write_pos := hI.hrdy hph
  have hcap := hI.cap
  have hlen0 : s.c_received.length = s.c_next_read_pos := hI.hrlen (by rw [hph]; simp)
  have hobs : s.slots.getD (s.c_next_read_pos % s.capacity) none = some s.c_next_read_pos := by
    rw [hcap]
    have hsl := hI.hslot (s.c_next_read_pos % N) (Nat.mod_lt _ (by omega))
    rcases hgd : s.slots.getD (s.c_next_read_pos % N) none with _ | v
    · rw [hgd] at hsl
      simp only [SlotSpec] at hsl
      have := Nat.mod_le s.c_next_read_pos N
      omega
    · rw [hgd] at hsl
      simp only [SlotSpec] at hsl
      obtain ⟨h1, h2, h3⟩ := hsl
      have := hI.hwr
      rw [mod_window_eq N v s.c_next_read_pos s.p_next_write_pos h2 h1 h3 hlt hI.hwr]
  have hrcv1 : s.c_received ++ [s.slots.getD (s.c_next_read_pos % s.capacity) none] =
      (List.range (s.c_received ++
        [s.slots.getD (s.c_next_read_pos % s.capacity) none]).length).map some := by
    rw [hobs]
    rw [show (s.c_received ++ [some s.c_next_read_pos]).length = s.c_next_read_pos + 1 from by
      simp [hlen0]]
    rw [List.range_succ, List.map_append]
    have h0 := hI.hrcv
    rw [hlen0] at h0
    rw [← h0]
    rfl
  split at hstep
  · -- send(next_read_pos).unwrap() succeeds: acknowledge and return Ok
    rename_i hpal
    rw [Option.some.injEq] at hstep
    subst hstep
    exact {
      cap := hI.cap
      len := hI.len
      hrw := by dsimp only; omega
      hwr := by have := hI.hwr; dsimp only; omega
      hwrt := by intro h; have := hI.hwrt h; dsimp only; omega
      hrdy := by intro h; simp at h
      hpl := by have := hI.hpl; dsimp only; omega
      hlrp := by
        intro a ha
        dsimp only at ha ⊢
        rcases List.mem_append.1 ha with h | h
        · rcases hI.hlrp a h with h2 | h2
          · exact Or.inl h2
          · exact Or.inr (by omega)
        · simp at h
          exact Or.inr (by omega)
      hps := by
        intro a ha
        rcases hI.hps a ha with h2 | h2
        · exact Or.inl h2
        · exact Or.inr (by dsimp only; omega)
      hcl := hI.hcl
      hnwp := hI.hnwp
      hcs := by intro v hv; simp at hv
      hfp := by intro h hc; simp
      hfc := by intro h; simp at h
      hgp := hI.hgp
      hgc := hI.hgc
      hdp := hI.hdp
      hdc := fun _ => Or.inl rfl
      hslot := hI.hslot
      hrcv := hrcv1
      hrlen := by intro _; dsimp only; simp [hobs, hlen0]
      hrbnd := by dsimp only; simp [hobs, hlen0]; omega
      hcnt := by
        dsimp only
        rw [List.count_append]
        have := hI.hcnt
        simp
        omega
    }
  · -- send(next_read_pos).unwrap() panics: the producer receiver is gone
    rename_i hpal
    rw [Option.some.injEq] at hstep
    subst hstep
    exact {
      cap := hI.cap
      len := hI.len
      hrw := hI.hrw
      hwr := hI.hwr
      hwrt := hI.hwrt
      hrdy := by intro h; simp at h
      hpl := hI.hpl
      hlrp := hI.hlrp
      hps := hI.hps
      hcl := hI.hcl
      hnwp := hI.hnwp
      hcs := by intro v hv; simp at hv
      hfp := hI.hfp
      hfc := by intro h; simp at h
      hgp := hI.hgp
      hgc := hI.hgc
      hdp := hI.hdp
      hdc := fun _ => Or.inr rfl
      hslot := hI.hslot
      hrcv := hrcv1
      hrlen := by intro h; exact absurd rfl h
      hrbnd := by dsimp only; simp [hobs, hlen0]; omega
      hcnt := hI.hcnt }

theorem bool_false_of_not_true {b : Bool} (h : ¬(b = true)) : b = false := by
  cases b
  · rfl
  · exact absurd rfl h

theorem rbInv_pCancel (N : Nat) (s s1 : RBState) (hI : RBInv N s)
    (hstep : rbStep .pCancel s = some s1) : RBInv N s1 := by
  simp only [rbStep] at hstep
  split at hstep
  case isFalse => exact absurd hstep (by simp)
  rename_i hcond
  obtain ⟨hph, hal⟩ := hcond
  split at hstep <;> rw [Option.some.injEq] at hstep <;> subst hstep
  · -- the consumer receiver is alive: queue the final write position
    rename_i hcal
    exact {
      cap := hI.cap
      len := hI.len
      hrw := hI.hrw
      hwr := hI.hwr
      hwrt := by intro h; rw [hph] at h; simp at h
      hrdy := hI.hrdy
      hpl := hI.hpl
      hlrp := fun a _ => Or.inl rfl
      hps := fun a _ => Or.inl rfl
      hcl := hI.hcl
      hnwp := by
        intro v hv
        dsimp only at hv ⊢
        rcases List.mem_append.1 hv with h | h
        · exact hI.hnwp v h
        · simp at h; omega
      hcs := hI.hcs
      hfp := by intro h; rw [hph] at h; simp at h
      hfc := by intro _ _; simp
      hgp := fun _ => rfl
      hgc := fun _ => rfl
      hdp := fun _ => Or.inl hph
      hdc := hI.hdc
      hslot := hI.hslot
      hrcv := hI.hrcv
      hrlen := hI.hrlen
      hrbnd := hI.hrbnd
      hcnt := hI.hcnt }
  · -- the consumer receiver is gone: send fails and unwrap panics
    rename_i hcal
    exact {
      cap := hI.cap
      len := hI.len
      hrw := hI.hrw
      hwr := hI.hwr
      hwrt := by intro h; simp at h
      hrdy := hI.hrdy
      hpl := hI.hpl
      hlrp := fun a _ => Or.inl rfl
      hps := by intro a ha; simp at ha
      hcl := hI.hcl
      hnwp := hI.hnwp
      hcs := hI.hcs
      hfp := by intro h; simp at h
      hfc := hI.hfc
      hgp := fun _ => rfl
      hgc := fun _ => rfl
      hdp := fun _ => Or.inr rfl
      hdc := hI.hdc
      hslot := hI.hslot
      hrcv := hI.hrcv
      hrlen := hI.hrlen
      hrbnd := hI.hrbnd
      hcnt := hI.hcnt }

theorem rbInv_pDrop (N : Nat) (s s1 : RBState) (hI : RBInv N s)
    (hstep : rbStep .pDrop s = some s1) : RBInv N s1 := by
  simp only [rbStep] at hstep
  split at hstep
  case isFalse => exact absurd hstep (by simp)
  rename_i hcond
  obtain ⟨hph, hal⟩ := hcond
  split at hstep <;> rw [Option.some.injEq] at hstep <;> subst hstep
  · rename_i hcal
    exact {
      cap := hI.cap
      len := hI.len
      hrw := hI.hrw
      hwr := hI.hwr
      hwrt := by intro h; rw [hph] at h; simp at h
      hrdy := hI.hrdy
      hpl := hI.hpl
      hlrp := fun a _ => Or.inl rfl
      hps := fun a _ => Or.inl rfl
      hcl := hI.hcl
      hnwp := by
        intro v hv
        dsimp only at hv ⊢
        rcases List.mem_append.1 hv with h | h
        · exact hI.hnwp v h
        · simp at h; omega
      hcs := hI.hcs
      hfp := by intro h; rw [hph] at h; simp at h
      hfc := by intro _ _; simp
      hgp := fun _ => rfl
      hgc := fun _ => rfl
      hdp := fun _ => Or.inl hph
      hdc := hI.hdc
      hslot := hI.hslot
      hrcv := hI.hrcv
      hrlen := hI.hrlen
      hrbnd := hI.hrbnd
      hcnt := hI.hcnt }
  · rename_i hcal
    exact {
      cap := hI.cap
      len := hI.len
      hrw := hI.hrw
      hwr := hI.hwr
      hwrt := by intro h; simp at h
      hrdy := hI.hrdy
      hpl := hI.hpl
      hlrp := fun a _ => Or.inl rfl
      hps := by intro a ha; simp at ha
      hcl := hI.hcl
      hnwp := hI.hnwp
      hcs := hI.hcs
      hfp := by intro h; simp at h
      hfc := by
        intro h _
        rcases hI.hdc (bool_false_of_not_true hcal) with h2 | h2 <;> rw [h2] at h <;> simp at h
      hgp := fun _ => rfl
      hgc := fun _ => rfl
      hdp := fun _ => Or.inr rfl
      hdc := hI.hdc
      hslot := hI.hslot
      hrcv := hI.hrcv
      hrlen := hI.hrlen
      hrbnd := hI.hrbnd
      hcnt := hI.hcnt }

theorem rbInv_cCancel (N : Nat) (s s1 : RBState) (hI : RBInv N s)
    (hstep : rbStep .cCancel s = some s1) : RBInv N s1 := by
  simp only [rbStep] at hstep
  split at hstep
  case isFalse => exact absurd hstep (by simp)
  rename_i hcond
  obtain ⟨hph, hal⟩ := hcond
  split at hstep <;> rw [Option.some.injEq] at hstep <;> subst hstep
  · -- the producer receiver is alive: queue the (wrapping) final position
    rename_i hpal
    exact {
      cap := hI.cap
      len := hI.len
      hrw := hI.hrw
      hwr := hI.hwr
      hwrt := hI.hwrt
      hrdy := by intro h; rw [hph] at h; simp at h
      hpl := hI.hpl
      hlrp := fun a _ => Or.inl rfl
      hps := fun a _ => Or.inl rfl
      hcl := hI.hcl
      hnwp := hI.hnwp
      hcs := by intro v hv; rw [hph] at hv; simp at hv
      hfp := by intro _ _; simp
      hfc := by intro h; rw [hph] at h; simp at h
      hgp := fun _ => rfl
      hgc := fun _ => rfl
      hdp := hI.hdp
      hdc := fun _ => Or.inl hph
      hslot := hI.hslot
      hrcv := hI.hrcv
      hrlen := fun _ => hI.hrlen (by rw [hph]; simp)
      hrbnd := hI.hrbnd
      hcnt := hI.hcnt }
  · -- the producer receiver is gone: send fails and unwrap panics
    rename_i hpal
    exact {
      cap := hI.cap
      len := hI.len
      hrw := hI.hrw
      hwr := hI.hwr
      hwrt := hI.hwrt
      hrdy := by intro h; simp at h
      hpl := hI.hpl
      hlrp := fun a _ => Or.inl rfl
      hps := fun a _ => Or.inl rfl
      hcl := hI.hcl
      hnwp := hI.hnwp
      hcs := by intro v hv; simp at hv
      hfp := by
        intro h _
        rcases hI.hdp (bool_false_of_not_true hpal) with h2 | h2 <;> rw [h2] at h <;> simp at h
      hfc := by intro h; simp at h
      hgp := fun _ => rfl
      hgc := fun _ => rfl
      hdp := hI.hdp
      hdc := fun _ => Or.inr rfl
      hslot := hI.hslot
      hrcv := hI.hrcv
      hrlen := by intro h; exact absurd rfl h
      hrbnd := hI.hrbnd
      hcnt := hI.hcnt }

theorem rbInv_cDrop (N : Nat) (s s1 : RBState) (hI : RBInv N s)
    (hstep : rbStep .cDrop s = some s1) : RBInv N s1 := by
  simp only [rbStep] at hstep
  split at hstep
  case isFalse => exact absurd hstep (by simp)
  rename_i hcond
  obtain ⟨hph, hal⟩ := hcond
  split at hstep <;> rw [Option.some.injEq] at hstep <;> subst hstep
  · rename_i hpal
    exact {
      cap := hI.cap
      len := hI.len
      hrw := hI.hrw
      hwr := hI.hwr
      hwrt := hI.hwrt
      hrdy := by intro h; rw [hph] at h; simp at h
      hpl := hI.hpl
      hlrp := fun a _ => Or.inl rfl
      hps := fun a _ => Or.inl rfl
      hcl := hI.hcl
      hnwp := hI.hnwp
      hcs := by intro v hv; rw [hph] at hv; simp at hv
      hfp := by intro _ _; simp
      hfc := by intro h; rw [hph] at h; simp at h
      hgp := fun _ => rfl
      hgc := fun _ => rfl
      hdp := hI.hdp
      hdc := fun _ => Or.inl hph
      hslot := hI.hslot
      hrcv := hI.hrcv
      hrlen := fun _ => hI.hrlen (by rw [hph]; simp)
      hrbnd := hI.hrbnd
      hcnt := hI.hcnt }
  · rename_i hpal
    exact {
      cap := hI.cap
      len := hI.len
      hrw := hI.hrw
      hwr := hI.hwr
      hwrt := hI.hwrt
      hrdy := by intro h; simp at h
      hpl := hI.hpl
      hlrp := fun a _ => Or.inl rfl
      hps := fun a _ => Or.inl rfl
      hcl := hI.hcl
      hnwp := hI.hnwp
      hcs := by intro v hv; simp at hv
      hfp := by
        intro h _
        rcases hI.hdp (bool_false_of_not_true hpal) with h2 | h2 <;> rw [h2] at h <;> simp at h
      hfc := by intro h; simp at h
      hgp := fun _ => rfl
      hgc := fun _ => rfl
      hdp := hI.hdp
      hdc := fun _ => Or.inr rfl
      hslot := hI.hslot
      hrcv := hI.hrcv
      hrlen := by intro h; exact absurd rfl h
      hrbnd := hI.hrbnd
      hcnt := hI.hcnt }

/-- The invariant is preserved by every enabled micro-step. -/
theorem rbInv_step (N : Nat) (hN : 2 ≤ N) (l : RBLabel) (s s1 : RBState)
    (hI : RBInv N s) (hstep : rbStep l s = some s1) : RBInv N s1 := by
  cases l
  case pCall => exact rbInv_pCall N s s1 hI hstep
  case pScan => exact rbInv_pScan N s s1 hI hstep
  case pRecv => exact rbInv_pRecv N s s1 hI hstep
  case pWrite => exact rbInv_pWrite N hN s s1 hI hstep
  case cCall => exact rbInv_cCall N s s1 hI hstep
  case cScan => exact rbInv_cScan N s s1 hI hstep
  case cRecv => exact rbInv_cRecv N s s1 hI hstep
  case cRead => exact rbInv_cRead N hN s s1 hI hstep
  case pCancel => exact rbInv_pCancel N s s1 hI hstep
  case pDrop => exact rbInv_pDrop N s s1 hI hstep
  case cCancel => exact rbInv_cCancel N s s1 hI hstep
  case cDrop => exact rbInv_cDrop N s s1 hI hstep

/-- Every reachable state of a capacity-`N` channel pair satisfies the
invariant. -/
theorem rbInv_reachable (N : Nat) (hN : 2 ≤ N) (s : RBState)
    (h : RBReachable N s) : RBInv N s := by
  induction h with
  | refl => exact rbInv_init N
  | tail hab hbc ih =>
    obtain ⟨l, hl⟩ := hbc
    exact rbInv_step N hN l _ _ ih hl

/-- `RingBuf::create_channel_with_default_value`: construct the backing ring
(`RingBuf::new`, which panics on capacity 1), then the joint initial channel
state with both position counters at 0 and empty feeds. -/
def RingBuf.create_channel_with_default_value (T : Type) (capacity : Nat) (d : T) :
    Option RBState :=
  (RingBuf.new T capacity d).map (fun _ => rbInit capacity)

/-- C1: Ring-channel position invariant and no-corruption.  For every
capacity `N ≥ 2` and every reachable state of any interleaving of producer
`with_next_buffer`, consumer `with_next_buffer`, and cancel/drop calls:
`read_pos ≤ write_pos ≤ read_pos + N` (with `read_pos = next_read_pos`, the
number of completed reads, and `write_pos = next_write_pos`, the number of
completed writes); whenever the producer is at its unique
slot-writing/advancing point (`writeReady`) the strict bound
`write_pos - read_pos < N` holds, and whenever the consumer is at its
slot-reading/advancing point (`readReady`), `read_pos < write_pos` holds.
The third conjunct is exactly no-corruption: the slot about to be
overwritten holds position `write_pos - N < read_pos`, whose read completed
(and was acknowledged on the feed) earlier. -/
theorem ringbuf_position_invariant (N : Nat) (s : RBState) (hN : 2 ≤ N)
    (h : RBReachable N s) :
    s.c_next_read_pos ≤ s.p_next_write_pos ∧
    s.p_next_write_pos ≤ s.c_next_read_pos + N ∧
    (s.p_phase = .writeReady → s.p_next_write_pos < s.c_next_read_pos + N) ∧
    (s.c_phase = .readReady → s.c_next_read_pos < s.p_next_write_pos) := by
  have hI := rbInv_reachable N hN s h
  exact ⟨hI.hrw, hI.hwr, hI.hwrt, hI.hrdy⟩

/-- A concrete reachable state of a capacity-2 channel: the producer has
completed one send (`with_next_buffer` returned `Ok` once). -/
def rbDemo1 : RBState :=
  { capacity := 2
    flag := false
    slots := [some 0, none]
    p_next_write_pos := 1
    p_lastknown_last_read_pos := 0
    p_phase := .idle
    p_alive := true
    p_results := [true]
    c_next_read_pos := 0
    c_lastknown_next_write_pos := 0
    c_phase := .idle
    c_alive := true
    c_results := []
    feed_last_read_pos := []
    feed_next_write_pos := [1]
    c_received := [] }

/-- Witness for C1 at the concrete reachable state `rbDemo1`. -/
theorem ringbuf_position_invariant_witness :
    rbDemo1.c_next_read_pos ≤ rbDemo1.p_next_write_pos ∧
    rbDemo1.p_next_write_pos ≤ rbDemo1.c_next_read_pos + 2 ∧
    (rbDemo1.p_phase = .writeReady →
      rbDemo1.p_next_write_pos < rbDemo1.c_next_read_pos + 2) ∧
    (rbDemo1.c_phase = .readReady →
      rbDemo1.c_next_read_pos < rbDemo1.p_next_write_pos) :=
  ringbuf_position_invariant 2 rbDemo1 (by omega)
    (rbRun_reachable [.pCall, .pScan, .pWrite] (rbInit 2) rbDemo1 (by decide))

/-- C2: FIFO delivery.  In every reachable state of any interleaving, the
sequence of slot contents the consumer's `with_next_buffer` callbacks have
observed is exactly `[some 0, some 1, ..]` — the tokens written by the
producer's sends, in the order those sends completed — and its length never
exceeds the number of completed sends, so no receive returns a buffer
before its corresponding send completed. -/
theorem ringbuf_fifo_delivery (N : Nat) (s : RBState) (hN : 2 ≤ N)
    (h : RBReachable N s) :
    s.c_received = (List.range s.c_received.length).map some ∧
    s.c_received.length ≤ s.p_next_write_pos := by
  have hI := rbInv_reachable N hN s h
  exact ⟨hI.hrcv, hI.hrbnd⟩

/-- A concrete reachable state of a capacity-2 channel after one completed
send and one completed receive. -/
def rbDemo2 : RBState :=
  { capacity := 2
    flag := false
    slots := [some 0, none]
    p_next_write_pos := 1
    p_lastknown_last_read_pos := 0
    p_phase := .idle
    p_alive := true
    p_results := [true]
    c_next_read_pos := 1
    c_lastknown_next_write_pos := 1
    c_phase := .idle
    c_alive := true
    c_results := [true]
    feed_last_read_pos := [0]
    feed_next_write_pos := []
    c_received := [some 0] }

/-- Witness for C2: after sending once and receiving once, the consumer has
observed exactly `[some 0]`. -/
theorem ringbuf_fifo_delivery_witness :
    rbDemo2.c_received = (List.range rbDemo2.c_received.length).map some ∧
    rbDemo2.c_received.length ≤ rbDemo2.p_next_write_pos :=
  ringbuf_fifo_delivery 2 rbDemo2 (by omega)
    (rbRun_reachable [.pCall, .pScan, .pWrite, .cCall, .cScan, .cRecv, .cScan, .cRead]
      (rbInit 2) rbDemo2 (by decide))

/-- C8: the consumer-side cancel subtraction underflows on a fresh
consumer.  `RingBufConsumer::cancel` (also run by its `Drop`) computes
`self.next_read_pos - 1` on a `usize`.  In every reachable state in which no
consumer `with_next_buffer` call has succeeded (no `true` in its results),
`next_read_pos` is still 0, the subtraction's underflow condition
`next_read_pos < 1` holds — so the overflow-checked panic branch of `cancel`
is reachable — and the wrapping value actually sent on the feed is
`2^64 - 1`. -/
theorem consumer_cancel_underflow (N : Nat) (s : RBState) (hN : 2 ≤ N)
    (h : RBReachable N s) (hnosucc : s.c_results.count true = 0) :
    s.c_next_read_pos = 0 ∧ s.c_next_read_pos < 1 ∧
    usizeSub s.c_next_read_pos 1 = 2 ^ 64 - 1 := by
  have hI := rbInv_reachable N hN s h
  have hr : s.c_next_read_pos = 0 := by rw [hI.hcnt, hnosucc]
  refine ⟨hr, by omega, ?_⟩
  rw [hr]
  simp [usizeSub]

/-- Witness for C8 at the fresh capacity-2 channel. -/
theorem consumer_cancel_underflow_witness :
    (rbInit 2).c_next_read_pos = 0 ∧ (rbInit 2).c_next_read_pos < 1 ∧
    usizeSub (rbInit 2).c_next_read_pos 1 = 2 ^ 64 - 1 :=
  consumer_cancel_underflow 2 (rbInit 2) (by omega) Relation.ReflTransGen.refl (by decide)

/-- C6 counterexample: the claim says every capacity below 2 is rejected,
but `RingBuf::new` only asserts `capacity != 1`; capacity 0 passes the
assertion and construction succeeds. -/
theorem ringbuf_capacity_zero_accepted :
    ((RingBuf.create_channel_with_default_value Nat 0 0).isSome = true) ∧ 0 < 2 := by
  constructor
  · rfl
  · omega

/-- C6 as amended: construction of a ring channel is rejected exactly for
capacity 1 (the `assert!(capacity != 1)`); every other capacity, including
0, is accepted; and every accepted channel of capacity `N ≥ 2` operates on
exactly its `N` slots in all reachable states. -/
theorem ringbuf_capacity_accepted_iff_ne_one :
    (∀ (T : Type) (cap : Nat) (d : T),
      (RingBuf.create_channel_with_default_value T cap d).isSome = true ↔ cap ≠ 1) ∧
    (∀ (N : Nat) (s : RBState), 2 ≤ N → RBReachable N s →
      s.slots.length = N ∧ s.capacity = N) := by
  constructor
  · intro T cap d
    simp [RingBuf.create_channel_with_default_value, RingBuf.new]
  · intro N s hN h
    have hI := rbInv_reachable N hN s h
    exact ⟨hI.len, hI.cap⟩

/-- Witness for the amended C6: capacity 2 is accepted and a fresh
capacity-2 channel has exactly 2 slots. -/
theorem ringbuf_capacity_accepted_iff_ne_one_witness :
    ((RingBuf.create_channel_with_default_value Nat 2 7).isSome = true ↔ (2 : Nat) ≠ 1) ∧
    (rbInit 2).slots.length = 2 ∧ (rbInit 2).capacity = 2 :=
  ⟨ringbuf_capacity_accepted_iff_ne_one.1 Nat 2 7,
   ringbuf_capacity_accepted_iff_ne_one.2 2 (rbInit 2) (by omega) Relation.ReflTransGen.refl⟩

/-- C4: dropping one endpoint cancels the blocked peer.  If the producer is
blocked on the read-position feed inside `with_next_buffer` and the
consumer endpoint is dropped, the producer is immediately unblocked (the
drop's `cancel` queues a final feed message before the channel
disconnects), observes the `one_was_dropped` flag on its next loop
iteration, and the call returns `Err(())` — it does not hang and does not
write.  Symmetrically for a blocked consumer when the producer endpoint is
dropped. -/
theorem ringbuf_drop_cancels_blocked_peer (N : Nat) (s : RBState) (hN : 2 ≤ N)
    (h : RBReachable N s) :
    (s.p_phase = .recvWait → s.c_phase = .idle → s.c_alive = true →
      ∃ s3, rbRun s [.cDrop, .pRecv, .pScan] = some s3 ∧
        s3.p_results = s.p_results ++ [false] ∧ s3.p_phase = .idle) ∧
    (s.c_phase = .recvWait → s.p_phase = .idle → s.p_alive = true →
      ∃ s3, rbRun s [.pDrop, .cRecv, .cScan] = some s3 ∧
        s3.c_results = s.c_results ++ [false] ∧ s3.c_phase = .idle) := by
  have hI := rbInv_reachable N hN s h
  constructor
  · intro hpw hci hca
    have hpa : s.p_alive = true := by
      cases hpa2 : s.p_alive
      · rcases hI.hdp hpa2 with h2 | h2 <;> rw [h2] at hpw <;> simp at hpw
      · rfl
    rcases hf : s.feed_last_read_pos with _ | ⟨a, t⟩
    · exact ⟨_, by simp [rbRun, rbStep, hpw, hci, hca, hpa, hf]; rfl, rfl, rfl⟩
    · exact ⟨_, by simp [rbRun, rbStep, hpw, hci, hca, hpa, hf]; rfl, rfl, rfl⟩
  · intro hcw hpi hpa
    have hca : s.c_alive = true := by
      cases hca2 : s.c_alive
      · rcases hI.hdc hca2 with h2 | h2 <;> rw [h2] at hcw <;> simp at hcw
      · rfl
    rcases hf : s.feed_next_write_pos with _ | ⟨a, t⟩
    · exact ⟨_, by simp [rbRun, rbStep, hcw, hpi, hpa, hca, hf]; rfl, rfl, rfl⟩
    · exact ⟨_, by simp [rbRun, rbStep, hcw, hpi, hpa, hca, hf]; rfl, rfl, rfl⟩

/-- A concrete reachable capacity-2 state in which the producer is blocked
inside `with_next_buffer` (two completed sends, no reads, so the ring is
full and it waits on the read-position feed) while the consumer is idle. -/
def rbDemo3 : RBState :=
  { capacity := 2
    flag := false
    slots := [some 0, some 1]
    p_next_write_pos := 2
    p_lastknown_last_read_pos := 0
    p_phase := .recvWait
    p_alive := true
    p_results := [true, true]
    c_next_read_pos := 0
    c_lastknown_next_write_pos := 0
    c_phase := .idle
    c_alive := true
    c_results := []
    feed_last_read_pos := []
    feed_next_write_pos := [1, 2]
    c_received := [] }

/-- Witness for C4: from `rbDemo3`, dropping the consumer makes the blocked
producer call finish with `Err(())` in two micro-steps. -/
theorem ringbuf_drop_cancels_blocked_peer_witness :
    ∃ s3, rbRun rbDemo3 [.cDrop, .pRecv, .pScan] = some s3 ∧
      s3.p_results = rbDemo3.p_results ++ [false] ∧ s3.p_phase = .idle :=
  (ringbuf_drop_cancels_blocked_peer 2 rbDemo3 (by omega)
    (rbRun_reachable [.pCall, .pScan, .pWrite, .pCall, .pScan, .pWrite, .pCall, .pScan]
      (rbInit 2) rbDemo3 (by decide))).1 rfl rfl rfl

/-- C9: cancelling (in particular dropping) the second endpoint after the
peer endpoint is gone panics.  `cancel` does
`self.<feed>.send(..).unwrap()`; once the peer has been dropped, its
receiver half is disconnected, the send returns `Err`, and the `unwrap`
panics — teardown of the second endpoint never completes cleanly. -/
theorem cancel_after_peer_drop_panics (N : Nat) (s : RBState) (hN : 2 ≤ N)
    (h : RBReachable N s) :
    (s.c_phase = .idle → s.c_alive = true → s.p_alive = false →
      ∃ s1, rbStep .cDrop s = some s1 ∧ s1.c_phase = .panicked ∧ s1.c_alive = false) ∧
    (s.p_phase = .idle → s.p_alive = true → s.c_alive = false →
      ∃ s1, rbStep .pDrop s = some s1 ∧ s1.p_phase = .panicked ∧ s1.p_alive = false) := by
  constructor
  · intro hci hca hpd
    exact ⟨_, by simp [rbStep, hci, hca, hpd]; rfl, rfl, rfl⟩
  · intro hpi hpa hcd
    exact ⟨_, by simp [rbStep, hpi, hpa, hcd]; rfl, rfl, rfl⟩

/-- The reachable state right after dropping the producer of a fresh
capacity-2 channel. -/
def rbDemo4 : RBState :=
  { capacity := 2
    flag := true
    slots := [none, none]
    p_next_write_pos := 0
    p_lastknown_last_read_pos := 0
    p_phase := .idle
    p_alive := false
    p_results := []
    c_next_read_pos := 0
    c_lastknown_next_write_pos := 0
    c_phase := .idle
    c_alive := true
    c_results := []
    feed_last_read_pos := []
    feed_next_write_pos := [0]
    c_received := [] }

/-- Witness for C9: with the producer already dropped (`rbDemo4`), dropping
the consumer reaches the panicking branch of its `cancel`. -/
theorem cancel_after_peer_drop_panics_witness :
    ∃ s1, rbStep .cDrop rbDemo4 = some s1 ∧ s1.c_phase = .panicked ∧ s1.c_alive = false :=
  (cancel_after_peer_drop_panics 2 rbDemo4 (by omega)
    (rbRun_reachable [.pDrop] (rbInit 2) rbDemo4 (by decide))).1 rfl rfl rfl

/-- `src/ft60x.rs`: the 32 KiB block size of `FT60x::read_exact`. -/
def blocksize : Nat := 32 * 1024

/-- Number of chunks `buf.chunks_mut(blocksize)` yields for a buffer of
`len` bytes. -/
def numChunks (len : Nat) : Nat := (len + blocksize - 1) / blocksize

/-- Requested byte count of chunk `j` of a `len`-byte buffer. -/
def chunkSize (len j : Nat) : Nat := min blocksize (len - j * blocksize)

/-- Bookkeeping of one `read_exact` call against the synthetic backend:
indices of submitted-but-unretired chunk requests (the `AsyncGroup`
contents), indices already retired via `wait_any` (`collected` is its
length), the total number of `submit` calls, and the running maximum of
simultaneously outstanding requests, sampled after each submit (the count
changes only at submit/retire, so this is the overall maximum). -/
structure RxState where
  pending : List Nat
  retired : List Nat
  submitted : Nat
  maxPending : Nat
  deriving DecidableEq

/-- One `async_group.wait_any()` against the synthetic backend: the
completion oracle `actual j` gives the byte count chunk `j` completed with,
and `pick k` chooses which outstanding request the `k`-th wait retires
(completions arrive in any order).  `none` models the `ensure!` failure
when the transfer completed short (`actual ≠ requested`) — `read_exact`
aborts with an error there — or a `wait_any` with nothing outstanding. -/
def rxRetireOne (len : Nat) (actual pick : Nat → Nat) (st : RxState) : Option RxState :=
  match hp : st.pending with
  | [] => none
  | _ :: _ =>
    let i := pick st.retired.length % st.pending.length
    let j := st.pending.getD i 0
    if actual j = chunkSize len j then
      some { st with
        pending := st.pending.take i ++ st.pending.drop (i + 1),
        retired := st.retired ++ [j] }
    else none

/-- The submission loop of `read_exact`:
`for (i, chunk) in mut_chunks.enumerate() { if i > 500 { wait one; ensure
full } submit(chunk) }`.  The first component is `false` when the loop
aborted with an error (short transfer); the state is kept for
instrumentation either way. -/
def rxSubmit (len : Nat) (actual pick : Nat → Nat) : Nat → Nat → RxState → Bool × RxState
  | 0, _, st => (true, st)
  | fuel + 1, i, st =>
    if 500 < i then
      match rxRetireOne len actual pick st with
      | none => (false, st)
      | some st1 =>
        rxSubmit len actual pick fuel (i + 1)
          { st1 with
            pending := st1.pending ++ [i],
            submitted := st1.submitted + 1,
            maxPending := max st1.maxPending (st1.pending ++ [i]).length }
    else
      rxSubmit len actual pick fuel (i + 1)
        { st with
          pending := st.pending ++ [i],
          submitted := st.submitted + 1,
          maxPending := max st.maxPending (st.pending ++ [i]).length }

/-- The drain loop of `read_exact`:
`while let Ok(t) = wait_any() { ensure full; }` — retire outstanding
requests until none remain (the synthetic device answers everything),
aborting on a short transfer. -/
def rxDrain (len : Nat) (actual pick : Nat → Nat) : Nat → RxState → Bool × RxState
  | 0, st => (st.pending.isEmpty, st)
  | fuel + 1, st =>
    match st.pending with
    | [] => (true, st)
    | _ :: _ =>
      match rxRetireOne len actual pick st with
      | none => (false, st)
      | some st1 => rxDrain len actual pick fuel st1

/-- `FT60x::read_exact(buf)` against the synthetic backend, for a `len`-byte
buffer: submit all `numChunks len` chunks under the `i > 500` window rule,
drain the remainder, then `ensure!(collected == mut_chunks_len)`.  Returns
whether the call returned `Ok(())`, plus the instrumented state. -/
def read_exact (len : Nat) (actual pick : Nat → Nat) : Bool × RxState :=
  let k := numChunks len
  let r1 := rxSubmit len actual pick k 0 ⟨[], [], 0, 0⟩
  if r1.1 then
    let r2 := rxDrain len actual pick r1.2.pending.length r1.2
    if r2.1 then (r2.2.retired.length == k, r2.2) else (false, r2.2)
  else (false, r1.2)

theorem list_decomp (l : List Nat) (i : Nat) (h : i < l.length) :
    l = l.take i ++ l.getD i 0 :: l.drop (i + 1) := by
  conv_lhs => rw [← List.take_append_drop i l]
  rw [List.getD_eq_getElem l 0 h, List.getElem_cons_drop l i h]

/-- What a successful `wait_any` retire does: it removes one outstanding
request `j` (whose completion passed the full-length check), appends it to
the retired list, and touches nothing else. -/
theorem rxRetireOne_spec (len : Nat) (actual pick : Nat → Nat) (st st1 : RxState)
    (h : rxRetireOne len actual pick st = some st1) :
    ∃ j, j ∈ st.pending ∧ actual j = chunkSize len j ∧
      st1.retired = st.retired ++ [j] ∧
      (st1.retired ++ st1.pending).Perm (st.retired ++ st.pending) ∧
      st1.pending.length + 1 = st.pending.length ∧
      (∀ x ∈ st1.pending, x ∈ st.pending) ∧
      st1.submitted = st.submitted ∧ st1.maxPending = st.maxPending := by
  unfold rxRetireOne at h
  split at h
  · exact absurd h (by simp)
  rename_i a t hp
  dsimp only at h
  set i := pick st.retired.length % st.pending.length with hi
  have hlt : i < st.pending.length := by
    apply Nat.mod_lt
    rw [hp]
    simp
  split at h
  case isFalse => exact absurd h (by simp)
  rename_i hchk
  rw [Option.some.injEq] at h
  subst h
  have hdec := list_decomp st.pending i hlt
  have hmem : st.pending.getD i 0 ∈ st.pending := by
    rw [List.getD_eq_getElem st.pending 0 hlt]
    exact List.getElem_mem hlt
  refine ⟨st.pending.getD i 0, hmem, hchk, rfl, ?_, ?_, ?_, rfl, rfl⟩
  · dsimp only
    rw [← List.append_cons]
    conv_rhs => rw [hdec]
    exact List.Perm.append_left _ List.perm_middle.symm
  · dsimp only
    rw [List.length_append, List.length_take, List.length_drop]
    omega
  · intro x hx
    dsimp only at hx
    rcases List.mem_append.1 hx with h2 | h2
    · exact List.mem_of_mem_take h2
    · exact List.mem_of_mem_drop h2

/-- `wait_any` succeeds whenever something is outstanding and every
outstanding chunk completed full-length. -/
theorem rxRetireOne_success (len : Nat) (actual pick : Nat → Nat) (st : RxState)
    (hne : st.pending ≠ [])
    (hall : ∀ j ∈ st.pending, actual j = chunkSize len j) :
    ∃ st1, rxRetireOne len actual pick st = some st1 := by
  unfold rxRetireOne
  split
  · exact absurd (by assumption) hne
  rename_i a t hp
  dsimp only
  have hlt : pick st.retired.length % st.pending.length < st.pending.length := by
    apply Nat.mod_lt
    rw [hp]
    simp
  rw [if_pos]
  · exact ⟨_, rfl⟩
  · apply hall
    rw [List.getD_eq_getElem st.pending 0 hlt]
    exact List.getElem_mem hlt

/-- Drain soundness: draining permutes outstanding requests into the
retired list one at a time, every newly retired request passed the
full-length check, the submit counter and the outstanding maximum are
untouched, and success implies nothing is left outstanding. -/
theorem rxDrain_sound (len : Nat) (actual pick : Nat → Nat) : ∀ (fuel : Nat) (st : RxState),
    (∀ j ∈ st.retired, actual j = chunkSize len j) →
    (((rxDrain len actual pick fuel st).2.retired ++
        (rxDrain len actual pick fuel st).2.pending).Perm (st.retired ++ st.pending) ∧
      (∀ j ∈ (rxDrain len actual pick fuel st).2.retired, actual j = chunkSize len j) ∧
      (rxDrain len actual pick fuel st).2.submitted = st.submitted ∧
      (rxDrain len actual pick fuel st).2.maxPending = st.maxPending ∧
      ((rxDrain len actual pick fuel st).1 = true →
        (rxDrain len actual pick fuel st).2.pending = [])) := by
  intro fuel
  induction fuel with
  | zero =>
    intro st hret
    refine ⟨List.Perm.refl _, hret, rfl, rfl, ?_⟩
    intro h
    simpa [rxDrain, List.isEmpty_iff] using h
  | succ fuel ih =>
    intro st hret
    simp only [rxDrain]
    split
    · rename_i hp
      exact ⟨by rw [hp], hret, rfl, rfl, fun _ => hp⟩
    rename_i a t hp
    cases hro : rxRetireOne len actual pick st with
    | none => exact ⟨List.Perm.refl _, hret, rfl, rfl, by simp⟩
    | some st1 =>
      obtain ⟨j, hjmem, hjchk, hret1, hperm1, hlen1, hsub1, hsubm1, hmax1⟩ :=
        rxRetireOne_spec len actual pick st st1 hro
      have hret1' : ∀ x ∈ st1.retired, actual x = chunkSize len x := by
        intro x hx
        rw [hret1] at hx
        rcases List.mem_append.1 hx with h2 | h2
        · exact hret x h2
        · simp at h2
          rw [h2]
          exact hjchk
      obtain ⟨ihp, ihchk, ihsub, ihmax, ihok⟩ := ih st1 hret1'
      exact ⟨ihp.trans hperm1, ihchk, by rw [ihsub, hsubm1], by rw [ihmax, hmax1], ihok⟩

/-- Drain completeness: with enough fuel (one unit per outstanding request)
and every outstanding chunk completing full-length, the drain loop retires
everything without error. -/
theorem rxDrain_complete (len : Nat) (actual pick : Nat → Nat) : ∀ (fuel : Nat) (st : RxState),
    fuel = st.pending.length →
    (∀ j ∈ st.pending, actual j = chunkSize len j) →
    (rxDrain len actual pick fuel st).1 = true := by
  intro fuel
  induction fuel with
  | zero =>
    intro st hf hall
    simp only [rxDrain]
    rw [List.isEmpty_iff]
    exact (List.length_eq_zero).1 hf.symm
  | succ fuel ih =>
    intro st hf hall
    simp only [rxDrain]
    split
    · rfl
    rename_i a t hp
    obtain ⟨st1, hro⟩ := rxRetireOne_success len actual pick st (by rw [hp]; simp) hall
    rw [hro]
    obtain ⟨j, hjmem, hjchk, hret1, hperm1, hlen1, hsub1, hsubm1, hmax1⟩ :=
      rxRetireOne_spec len actual pick st st1 hro
    exact ih st1 (by omega) (fun x hx => hall x (hsub1 x hx))

/-- Submission-loop soundness: whatever the completion oracle does, the
retired and outstanding requests always form a permutation of the chunk
indices submitted so far, every retired request passed the full-length
check, and if the loop finished without error it submitted one request per
remaining chunk. -/
theorem rxSubmit_sound (len : Nat) (actual pick : Nat → Nat) : ∀ (fuel i : Nat) (st : RxState),
    st.submitted = i →
    ((st.retired ++ st.pending).Perm (List.range i)) →
    (∀ j ∈ st.retired, actual j = chunkSize len j) →
    (((rxSubmit len actual pick fuel i st).2.retired ++
        (rxSubmit len actual pick fuel i st).2.pending).Perm
          (List.range (rxSubmit len actual pick fuel i st).2.submitted) ∧
      (∀ j ∈ (rxSubmit len actual pick fuel i st).2.retired, actual j = chunkSize len j) ∧
      ((rxSubmit len actual pick fuel i st).1 = true →
        (rxSubmit len actual pick fuel i st).2.submitted = i + fuel)) := by
  intro fuel
  induction fuel with
  | zero =>
    intro i st hsub hperm hret
    simp only [rxSubmit]
    exact ⟨by rw [hsub]; exact hperm, hret, fun _ => by omega⟩
  | succ fuel ih =>
    intro i st hsub hperm hret
    simp only [rxSubmit]
    split
    · -- window: wait for one completion first
      rename_i hi
      cases hro : rxRetireOne len actual pick st with
      | none => exact ⟨by rw [hsub]; exact hperm, hret, by simp⟩
      | some st1 =>
        obtain ⟨j, hjmem, hjchk, hret1, hperm1, hlen1, hsub1, hsubm1, hmax1⟩ :=
          rxRetireOne_spec len actual pick st st1 hro
        have hperm2 : ((st1.retired ++ (st1.pending ++ [i])).Perm (List.range (i + 1))) := by
          rw [show List.range (i + 1) = List.range i ++ [i] from List.range_succ i]
          rw [← List.append_assoc]
          exact List.Perm.append_right [i] (hperm1.trans hperm)
        have hret2 : ∀ x ∈ st1.retired, actual x = chunkSize len x := by
          intro x hx
          rw [hret1] at hx
          rcases List.mem_append.1 hx with h2 | h2
          · exact hret x h2
          · simp at h2
            rw [h2]
            exact hjchk
        obtain ⟨ih1, ih2, ih3⟩ := ih (i + 1)
          { st1 with
            pending := st1.pending ++ [i],
            submitted := st1.submitted + 1,
            maxPending := max st1.maxPending (st1.pending ++ [i]).length }
          (by dsimp only; omega) (by dsimp only; exact hperm2) hret2
        exact ⟨ih1, ih2, fun h => by rw [ih3 h]; omega⟩
    · -- below the window threshold: submit immediately
      rename_i hi
      have hperm2 : ((st.retired ++ (st.pending ++ [i])).Perm (List.range (i + 1))) := by
        rw [show List.range (i + 1) = List.range i ++ [i] from List.range_succ i]
        rw [← List.append_assoc]
        exact List.Perm.append_right [i] hperm
      obtain ⟨ih1, ih2, ih3⟩ := ih (i + 1)
        { st with
          pending := st.pending ++ [i],
          submitted := st.submitted + 1,
          maxPending := max st.maxPending (st.pending ++ [i]).length }
        (by dsimp only; omega) (by dsimp only; exact hperm2) hret
      exact ⟨ih1, ih2, fun h => by rw [ih3 h]; omega⟩

/-- Submission-loop completeness: if every chunk below `k` completes
full-length, the loop runs to the end, having submitted all `k` chunks. -/
theorem rxSubmit_complete (len k : Nat) (actual pick : Nat → Nat)
    (Hfull : ∀ j, j < k → actual j = chunkSize len j) : ∀ (fuel i : Nat) (st : RxState),
    i + fuel = k →
    st.submitted = i →
    ((st.retired ++ st.pending).Perm (List.range i)) →
    (st.retired.length + 501 ≤ i ∨ st.retired = []) →
    ((rxSubmit len actual pick fuel i st).1 = true ∧
      (rxSubmit len actual pick fuel i st).2.submitted = k ∧
      (((rxSubmit len actual pick fuel i st).2.retired ++
        (rxSubmit len actual pick fuel i st).2.pending).Perm (List.range k)) ∧
      (∀ j ∈ (rxSubmit len actual pick fuel i st).2.retired, actual j = chunkSize len j)) := by
  intro fuel
  induction fuel with
  | zero =>
    intro i st hik hsub hperm hbound
    have hk : i = k := by omega
    subst hk
    simp only [rxSubmit]
    refine ⟨trivial, by omega, hperm, ?_⟩
    intro j hj
    apply Hfull
    have : j ∈ List.range i := hperm.mem_iff.1 (List.mem_append.2 (Or.inl hj))
    exact List.mem_range.1 this
  | succ fuel ih =>
    intro i st hik hsub hperm hbound
    simp only [rxSubmit]
    split
    · -- window: the retire always succeeds under the all-full oracle
      rename_i hi
      have hcount : st.retired.length + st.pending.length = i := by
        have := hperm.length_eq
        simp only [List.length_append, List.length_range] at this
        exact this
      have hpne : st.pending ≠ [] := by
        intro hnil
        rw [hnil] at hcount
        simp at hcount
        rcases hbound with h2 | h2
        · omega
        · rw [h2] at hcount; simp at hcount; omega
      have hall : ∀ j ∈ st.pending, actual j = chunkSize len j := by
        intro j hj
        apply Hfull
        have : j ∈ List.range i := hperm.mem_iff.1 (List.mem_append.2 (Or.inr hj))
        have := List.mem_range.1 this
        omega
      obtain ⟨st1, hro⟩ := rxRetireOne_success len actual pick st hpne hall
      rw [hro]
      obtain ⟨j, hjmem, hjchk, hret1, hperm1, hlen1, hsub1, hsubm1, hmax1⟩ :=
        rxRetireOne_spec len actual pick st st1 hro
      have hperm2 : ((st1.retired ++ (st1.pending ++ [i])).Perm (List.range (i + 1))) := by
        rw [show List.range (i + 1) = List.range i ++ [i] from List.range_succ i]
        rw [← List.append_assoc]
        exact List.Perm.append_right [i] (hperm1.trans hperm)
      have hbound2 : st1.retired.length + 501 ≤ i + 1 := by
        rw [hret1]
        simp only [List.length_append, List.length_cons, List.length_nil]
        rcases hbound with h2 | h2
        · omega
        · rw [h2]; simp; omega
      exact ih (i + 1)
        { st1 with
          pending := st1.pending ++ [i],
          submitted := st1.submitted + 1,
          maxPending := max st1.maxPending (st1.pending ++ [i]).length }
        (by omega) (by dsimp only; omega) (by dsimp only; exact hperm2)
        (Or.inl (by dsimp only; omega))
    · -- below the window threshold
      rename_i hi
      have hperm2 : ((st.retired ++ (st.pending ++ [i])).Perm (List.range (i + 1))) := by
        rw [show List.range (i + 1) = List.range i ++ [i] from List.range_succ i]
        rw [← List.append_assoc]
        exact List.Perm.append_right [i] hperm
      refine ih (i + 1)
        { st with
          pending := st.pending ++ [i],
          submitted := st.submitted + 1,
          maxPending := max st.maxPending (st.pending ++ [i]).length }
        (by omega) (by dsimp only; omega) (by dsimp only; exact hperm2) ?_
      rcases hbound with h2 | h2
      · exact Or.inl (by dsimp only; omega)
      · exact Or.inr h2

/-- C3: chunk accounting of `read_exact` on an exact multiple of the 32 KiB
block size.  For a `k * 32768`-byte buffer and any completion order,
`read_exact` returns `Ok` exactly when every one of the `k` chunk requests
completes with its full requested byte count (so a single short completion
forces an error and success is never reported), and on success it submitted
exactly `k` chunk requests. -/
theorem read_exact_chunk_accounting (k : Nat) (actual pick : Nat → Nat) :
    ((read_exact (k * blocksize) actual pick).1 = true ↔
      ∀ j, j < k → actual j = blocksize) ∧
    ((read_exact (k * blocksize) actual pick).1 = true →
      (read_exact (k * blocksize) actual pick).2.submitted = k) := by
  have hkc : numChunks (k * blocksize) = k := by
    simp only [numChunks, blocksize]
    omega
  have hcs : ∀ j, j < k → chunkSize (k * blocksize) j = blocksize := by
    intro j hj
    simp only [chunkSize, blocksize]
    omega
  obtain ⟨sp, sc, sk⟩ := rxSubmit_sound (k * blocksize) actual pick k 0 ⟨[], [], 0, 0⟩ rfl
    (by simp) (by simp)
  cases hb1 : (rxSubmit (k * blocksize) actual pick k 0 ⟨[], [], 0, 0⟩).1 with
  | false =>
    constructor
    · constructor
      · intro hok
        simp only [read_exact, hkc, hb1] at hok
        simp at hok
      · intro hfull
        exfalso
        have hcomp := rxSubmit_complete (k * blocksize) k actual pick
          (fun j hj => by rw [hcs j hj]; exact hfull j hj) k 0 ⟨[], [], 0, 0⟩
          (by omega) rfl (by simp) (Or.inr rfl)
        rw [hb1] at hcomp
        simp at hcomp
    · intro hok
      simp only [read_exact, hkc, hb1] at hok
      simp at hok
  | true =>
    have hsubk : (rxSubmit (k * blocksize) actual pick k 0 ⟨[], [], 0, 0⟩).2.submitted = k := by
      have := sk hb1
      omega
    obtain ⟨dperm, dchk, dsubm, dmax, dok⟩ := rxDrain_sound (k * blocksize) actual pick
      (rxSubmit (k * blocksize) actual pick k 0 ⟨[], [], 0, 0⟩).2.pending.length
      (rxSubmit (k * blocksize) actual pick k 0 ⟨[], [], 0, 0⟩).2 sc
    have hperm2 := dperm.trans (hsubk ▸ sp)
    cases hb2 : (rxDrain (k * blocksize) actual pick
        (rxSubmit (k * blocksize) actual pick k 0 ⟨[], [], 0, 0⟩).2.pending.length
        (rxSubmit (k * blocksize) actual pick k 0 ⟨[], [], 0, 0⟩).2).1 with
    | false =>
      constructor
      · constructor
        · intro hok
          simp only [read_exact, hkc, hb1, hb2] at hok
          simp at hok
        · intro hfull
          exfalso
          apply absurd hb2
          rw [rxDrain_complete (k * blocksize) actual pick _ _ rfl]
          · simp
          · intro j hj
            have hjk : j < k := by
              have := List.mem_range.1 ((hsubk ▸ sp).mem_iff.1
                (List.mem_append.2 (Or.inr hj)))
              omega
            rw [hcs j hjk]
            exact hfull j hjk
      · intro hok
        simp only [read_exact, hkc, hb1, hb2] at hok
        simp at hok
    | true =>
      have hpend := dok hb2
      constructor
      · constructor
        · intro hok
          simp [read_exact, hkc, hb1, hb2] at hok
          intro j hj
          have hjmem : j ∈ (rxDrain (k * blocksize) actual pick
              (rxSubmit (k * blocksize) actual pick k 0 ⟨[], [], 0, 0⟩).2.pending.length
              (rxSubmit (k * blocksize) actual pick k 0 ⟨[], [], 0, 0⟩).2).2.retired := by
            have := hperm2.mem_iff.2 (List.mem_range.2 hj)
            rcases List.mem_append.1 this with h2 | h2
            · exact h2
            · rw [hpend] at h2; simp at h2
          rw [← hcs j hj]
          exact dchk j hjmem
        · intro hfull
          simp [read_exact, hkc, hb1, hb2]
          have := hperm2.length_eq
          rw [hpend] at this
          simp only [List.append_nil, List.length_range] at this
          exact this
      · intro _
        simp [read_exact, hkc, hb1, hb2]
        rw [dsubm]
        exact hsubk

/-- Witness for C3: one full-length chunk gives `Ok` with exactly one
submission. -/
theorem read_exact_chunk_accounting_witness :
    (read_exact (1 * blocksize) (fun _ => blocksize) (fun _ => 0)).1 = true ∧
    (read_exact (1 * blocksize) (fun _ => blocksize) (fun _ => 0)).2.submitted = 1 := by
  have h := read_exact_chunk_accounting 1 (fun _ => blocksize) (fun _ => 0)
  have hok := h.1.mpr (fun j hj => rfl)
  exact ⟨hok, h.2 hok⟩

/-- The submission loop never lets more than 501 requests accumulate: below
index 501 at most `i + 1 ≤ 501` are outstanding, and from index 501 on one
completion is retired before each submit. -/
theorem rxSubmit_maxPending (len : Nat) (actual pick : Nat → Nat) :
    ∀ (fuel i : Nat) (st : RxState),
    st.pending.length ≤ min i 501 → st.maxPending ≤ 501 →
    (rxSubmit len actual pick fuel i st).2.maxPending ≤ 501 := by
  intro fuel
  induction fuel with
  | zero =>
    intro i st hlen hmax
    simp only [rxSubmit]
    exact hmax
  | succ fuel ih =>
    intro i st hlen hmax
    simp only [rxSubmit]
    split
    · rename_i hi
      cases hro : rxRetireOne len actual pick st with
      | none => exact hmax
      | some st1 =>
        obtain ⟨j, hjmem, hjchk, hret1, hperm1, hlen1, hsub1, hsubm1, hmax1⟩ :=
          rxRetireOne_spec len actual pick st st1 hro
        apply ih (i + 1)
        · simp only [List.length_append, List.length_cons, List.length_nil]
          omega
        · dsimp only
          simp only [List.length_append, List.length_cons, List.length_nil]
          omega
    · rename_i hi
      apply ih (i + 1)
      · simp only [List.length_append, List.length_cons, List.length_nil]
        omega
      · dsimp only
        simp only [List.length_append, List.length_cons, List.length_nil]
        omega

/-- The drain loop never changes the outstanding-maximum (it only removes
requests). -/
theorem rxDrain_maxPending (len : Nat) (actual pick : Nat → Nat) :
    ∀ (fuel : Nat) (st : RxState),
    (rxDrain len actual pick fuel st).2.maxPending = st.maxPending := by
  intro fuel
  induction fuel with
  | zero => intro st; rfl
  | succ fuel ih =>
    intro st
    simp only [rxDrain]
    split
    · rfl
    rename_i a t hp
    cases hro : rxRetireOne len actual pick st with
    | none => rfl
    | some st1 =>
      obtain ⟨j, hjmem, hjchk, hret1, hperm1, hlen1, hsub1, hsubm1, hmax1⟩ :=
        rxRetireOne_spec len actual pick st st1 hro
      rw [ih st1, hmax1]

/-- C5 as amended: the in-flight window bound of `read_exact` is 501, not
500.  In any run, on any buffer and completion order, at no point are more
than 501 chunk requests outstanding; whenever the outstanding count exceeds
500 (the `i > 500` test), one completed request is retired before the next
chunk is submitted. -/
theorem read_exact_window_bound (len : Nat) (actual pick : Nat → Nat) :
    (read_exact len actual pick).2.maxPending ≤ 501 := by
  have hsub := rxSubmit_maxPending len actual pick (numChunks len) 0 ⟨[], [], 0, 0⟩
    (by simp) (by norm_num)
  cases hb1 : (rxSubmit len actual pick (numChunks len) 0 ⟨[], [], 0, 0⟩).1 with
  | false =>
    simp [read_exact, hb1]
    exact hsub
  | true =>
    cases hb2 : (rxDrain len actual pick
        (rxSubmit len actual pick (numChunks len) 0 ⟨[], [], 0, 0⟩).2.pending.length
        (rxSubmit len actual pick (numChunks len) 0 ⟨[], [], 0, 0⟩).2).1 with
    | false =>
      simp [read_exact, hb1, hb2]
      rw [rxDrain_maxPending]
      exact hsub
    | true =>
      simp [read_exact, hb1, hb2]
      rw [rxDrain_maxPending]
      exact hsub

/-- Below the window threshold (all loop indices ≤ 500) the submission loop
never waits: it submits every chunk and the outstanding maximum grows to
the full number of outstanding requests. -/
theorem rxSubmit_no_window (len : Nat) (actual pick : Nat → Nat) :
    ∀ (fuel i : Nat) (st : RxState), i + fuel ≤ 501 →
    ((rxSubmit len actual pick fuel i st).1 = true ∧
      (rxSubmit len actual pick fuel i st).2.maxPending =
        (if fuel = 0 then st.maxPending else max st.maxPending (st.pending.length + fuel))) := by
  intro fuel
  induction fuel with
  | zero =>
    intro i st hle
    simp only [rxSubmit]
    exact ⟨trivial, by simp⟩
  | succ fuel ih =>
    intro i st hle
    simp only [rxSubmit]
    rw [if_neg (by omega)]
    obtain ⟨ih1, ih2⟩ := ih (i + 1)
      { st with
        pending := st.pending ++ [i],
        submitted := st.submitted + 1,
        maxPending := max st.maxPending (st.pending ++ [i]).length }
      (by omega)
    refine ⟨ih1, ?_⟩
    rw [ih2]
    simp only [List.length_append, List.length_cons, List.length_nil]
    split
    · rename_i hf
      subst hf
      simp
    · rename_i hf
      simp
      omega

/-- C5 counterexample: on a buffer of exactly 501 chunks with every chunk
completing full-length, `read_exact` has 501 requests outstanding at once
(indices 0..500 are all submitted before the first `i > 500` wait), so the
claimed bound `W = 500` on simultaneously outstanding requests is
violated. -/
theorem read_exact_window_counterexample :
    500 < (read_exact (501 * blocksize) (fun _ => blocksize) (fun _ => 0)).2.maxPending := by
  obtain ⟨hok, hmax⟩ := rxSubmit_no_window (501 * blocksize) (fun _ => blocksize) (fun _ => 0)
    501 0 ⟨[], [], 0, 0⟩ (by omega)
  have hkc : numChunks (501 * blocksize) = 501 := by
    simp only [numChunks, blocksize]
  cases hb2 : (rxDrain (501 * blocksize) (fun _ => blocksize) (fun _ => 0)
      (rxSubmit (501 * blocksize) (fun _ => blocksize) (fun _ => 0) 501 0
        ⟨[], [], 0, 0⟩).2.pending.length
      (rxSubmit (501 * blocksize) (fun _ => blocksize) (fun _ => 0) 501 0
        ⟨[], [], 0, 0⟩).2).1 with
  | false =>
    simp [read_exact, hkc, hok, hb2]
    rw [rxDrain_maxPending]
    simp at hmax
    omega
  | true =>
    simp [read_exact, hkc, hok, hb2]
    rw [rxDrain_maxPending]
    simp at hmax
    omega
